import Mathlib

/-!
# goseaweed: upload orchestration (submit.go, seaweed.go)

A shallow embedding of the upload paths of the goseaweed client:
`Assign`, `DeleteFile` (seaweed.go) and `BatchUploadFileParts`, `UploadFilePart`,
`ReplaceFilePart`, `uploadChunk`, `uploadManifest` (submit.go).

Conventions of the embedding.

* A Go `error` is identified with its text (what `err.Error()` returns); a nil error
  is the `ok` case of `Res`, or `none` in an `Option GoError`.
* `int64` values are integers; the one place where the source can leave the `int64`
  range (`fp.FileSize/sw.ChunkSize + 1`) is wrapped with `wrap64`.
* The collaborators whose code is not part of the two source files (the HTTP client
  `sw.HC`, `LookupFileId`, `DeleteChunks`, the manifest's `Marshal`, and the standard
  library's `json.Unmarshal`, `path.Base`, `filepath.Base`) are the fields of `Env`.
  Every call to the network, to `DeleteChunks` and to `Marshal` is appended to a trace of
  `Event`s together with the answer it received, and the answer of a network call may
  depend on the whole trace so far.
* `MkUrl(server, fid, args)` is kept as the triple it is built from.
* A stream (`io.Reader`) is represented by the number of bytes it still yields; closing
  it when `UploadFilePart` returns is not represented.
* A call that does not return (a run-time panic, or the process ending for lack of
  memory) is the result `none`. The only place of these paths where that is decided by
  the inputs is `make([]*ChunkInfo, 0, chunks)`, see `makeSucceeds`; the allocator limit
  and the memory available are the platform's and are fields of `Env`.
-/

namespace GoSeaweed

/-- Text of a Go error value. -/
abbrev GoError := String

/-- Outcome of a fallible call: a value, or a non-nil error. -/
inductive Res (α : Type) where
  | ok (a : α)
  | fail (e : GoError)
deriving DecidableEq, Repr

/-- Largest `int64`. -/
def int64Max : Int := 2 ^ 63 - 1

/-- Two's-complement wrap-around of an integer into the `int64` range. -/
def wrap64 (x : Int) : Int := (x + 2 ^ 63) % 2 ^ 64 - 2 ^ 63

/-- FilePart of submit.go. `Reader` is the number of bytes the stream still yields. -/
structure FilePart where
  Reader : Nat
  FileName : String
  FileSize : Int
  IsGzipped : Bool
  MimeType : String
  Ext : String
  ModTime : Int
  Collection : String
  Ttl : String
  Server : String
  Fid : String
deriving DecidableEq, Repr

/-- SubmitResult of submit.go; the zero value has every field empty. -/
structure SubmitResult where
  FileName : String := ""
  FileBase : String := ""
  FileUrl : String := ""
  Fid : String := ""
  Size : Int := 0
  Error : String := ""
  MimeType : String := ""
  Ext : String := ""
deriving DecidableEq, Repr

/-- AssignResult of seaweed.go; `Count` is a `uint64`. -/
structure AssignResult where
  Fid : String
  Url : String
  PublicUrl : String
  Count : Nat
  Error : String
deriving DecidableEq, Repr

/-- ChunkInfo, with the three fields that submit.go fills in. -/
structure ChunkInfo where
  Offset : Int
  Size : Int
  Fid : String
deriving DecidableEq, Repr

/-- ChunkManifest, with the four fields that submit.go fills in. -/
structure ChunkManifest where
  Name : String
  Size : Int
  Mime : String
  Chunks : List ChunkInfo
deriving DecidableEq, Repr

/-- Result of `HC.Upload`; only its `Size` is read by submit.go. -/
structure UploadResult where
  Size : Int
deriving DecidableEq, Repr

/-- The fields of Seaweed that the upload paths read. -/
structure Seaweed where
  Master : String
  ChunkSize : Int
deriving DecidableEq, Repr

/-- Modelled from the spec: `MkUrl` is not among the source files. The address
`http://<node>/<fid>[?ts=<unixSeconds>][&cm=true]` that `MkUrl(server, fid, args)` builds
is kept as the triple of its arguments. -/
structure Url where
  server : String
  fid : String
  args : List (String × String)
deriving DecidableEq, Repr

/-- `MkUrl(server, fid, args)`. -/
def MkUrl (server fid : String) (args : List (String × String)) : Url := ⟨server, fid, args⟩

/-- One call to a collaborator, with the answer it received. -/
inductive Event where
  /-- `sw.HC.Post(host, path, values)` -/
  | post (host path : String) (values : List (String × String)) (resp : Res String)
  /-- `sw.LookupFileId(fid, collection, readonly)` -/
  | lookup (fid collection : String) (flag : Bool) (resp : Res String)
  /-- `sw.HC.Upload(url, filename, reader, isGzipped, mime)`; `supplied` is the number
  of bytes the reader handed over. -/
  | upload (url : Url) (filename : String) (supplied : Nat) (gz : Bool) (mime : String)
      (resp : Res UploadResult)
  /-- `sw.HC.Delete(url)` -/
  | delete (url : String) (resp : Res Unit)
  /-- `sw.DeleteChunks(&cm, collection)` -/
  | deleteChunks (cm : ChunkManifest) (collection : String)
  /-- `manifest.Marshal()` -/
  | marshal (cm : ChunkManifest) (resp : Res String)
deriving DecidableEq, Repr

/-- The collaborators of the upload paths, and the platform. The answers of the network
calls may depend on the trace of all earlier calls. `maxAlloc` is the allocator limit of
the Go runtime in bytes, and `heapProvides n` tells whether the heap can provide an
object of `n` bytes. -/
structure Env where
  Post : List Event → String → String → List (String × String) → Res String
  Unmarshal : String → Res AssignResult
  LookupFileId : List Event → String → String → Bool → Res String
  Upload : List Event → Url → String → Nat → Bool → String → Res UploadResult
  Delete : List Event → String → Res Unit
  Marshal : ChunkManifest → Res String
  pathBase : String → String
  filepathBase : String → String
  maxAlloc : Nat
  heapProvides : Nat → Bool

/-- Go's `make([]*ChunkInfo, 0, cap)` for a capacity `cap` computed at run time, on a
64-bit platform, where a pointer takes 8 bytes: the runtime (`makeslice`) panics when `cap`
is negative, when `8 * cap` does not fit in a machine word, and when `8 * cap` exceeds the
allocator limit; otherwise it allocates `8 * cap` bytes, which the heap must provide. -/
def makeSucceeds (env : Env) (cap : Int) : Bool :=
  decide (0 ≤ cap) && decide (8 * cap < 2 ^ 64) && decide (8 * cap ≤ (env.maxAlloc : Int))
    && env.heapProvides (8 * cap).toNat

/-- The form values that `Assign` posts. -/
def assignValues (count : Int) (collection ttl : String) : List (String × String) :=
  [("count", toString count)]
    ++ (if collection ≠ "" then [("collection", collection)] else [])
    ++ (if ttl ≠ "" then [("ttl", ttl)] else [])

/-- The part of `Assign` after the POST: what it returns for the answer `r` of the POST. -/
def decodeAssign (env : Env) (r : Res String) : Res AssignResult :=
  match r with
  | .fail e => .fail e
  | .ok jsonBlob =>
    match env.Unmarshal jsonBlob with
    | .fail e =>
      .fail ("/dir/assign result JSON unmarshal error:" ++ e ++ ", json:" ++ jsonBlob)
    | .ok ret => if ret.Count ≤ 0 then .fail ret.Error else .ok ret

/-- `Seaweed.Assign` (seaweed.go). -/
def Assign (env : Env) (sw : Seaweed) (count : Int) (collection ttl : String)
    (tr : List Event) : Res AssignResult × List Event :=
  let values := assignValues count collection ttl
  let r := env.Post tr sw.Master "/dir/assign" values
  (decodeAssign env r, tr ++ [Event.post sw.Master "/dir/assign" values r])

/-- `Seaweed.DeleteFile` (seaweed.go); `none` is the nil error. -/
def DeleteFile (env : Env) (fileId collection : String) (tr : List Event) :
    Option GoError × List Event :=
  let r := env.LookupFileId tr fileId collection false
  let tr1 := tr ++ [Event.lookup fileId collection false r]
  match r with
  | .fail e => (some ("Failed to lookup " ++ fileId ++ ":" ++ e), tr1)
  | .ok fileUrl =>
    let d := env.Delete tr1 fileUrl
    let tr2 := tr1 ++ [Event.delete fileUrl d]
    match d with
    | .fail e => (some ("Failed to delete " ++ fileUrl ++ ":" ++ e), tr2)
    | .ok _ => (none, tr2)

/-- What `uploadChunk` returns, with the FilePart (whose stream it reads) and the trace
after the call. -/
structure ChunkOut where
  fid : String
  size : Int
  e : Option GoError
  fp : FilePart
  trace : List Event
deriving DecidableEq, Repr

/-- Modelled from the spec: `HC.Upload` is not among the source files. It reads the
reader it is given to its end ("chunk boundaries are determined purely by how many bytes
the limited read yields"), so a reader limited to `limit` bytes over a stream that still
yields `avail` bytes hands over `min avail limit` bytes. -/
def limitedRead (avail : Nat) (limit : Int) : Nat := min avail limit.toNat

/-- `Seaweed.uploadChunk` (submit.go). -/
def uploadChunk (env : Env) (sw : Seaweed) (fp : FilePart) (filename : String)
    (tr : List Event) : ChunkOut :=
  match Assign env sw 1 fp.Collection fp.Ttl tr with
  | (.fail err, tr1) => ⟨"", 0, some err, fp, tr1⟩
  | (.ok ret, tr1) =>
    let fileUrl := MkUrl ret.Url ret.Fid []
    let fid := ret.Fid
    let supplied := limitedRead fp.Reader sw.ChunkSize
    let u := env.Upload tr1 fileUrl filename supplied false "application/octet-stream"
    let tr2 := tr1 ++ [Event.upload fileUrl filename supplied false "application/octet-stream" u]
    let fp1 := { fp with Reader := fp.Reader - supplied }
    match u with
    | .fail uploadError => ⟨fid, 0, some uploadError, fp1, tr2⟩
    | .ok uploadResult => ⟨fid, uploadResult.Size, none, fp1, tr2⟩

/-- The query arguments carrying the modification time, set when it is not zero. -/
def tsArgs (fp : FilePart) : List (String × String) :=
  if fp.ModTime ≠ 0 then [("ts", toString fp.ModTime)] else []

/-- `Seaweed.uploadManifest` (submit.go); `none` is the nil error. -/
def uploadManifest (env : Env) (fp : FilePart) (manifest : ChunkManifest)
    (tr : List Event) : Option GoError × List Event :=
  let m := env.Marshal manifest
  let tr0 := tr ++ [Event.marshal manifest m]
  match m with
  | .fail e => (some e, tr0)
  | .ok buf =>
    let args := tsArgs fp ++ [("cm", "true")]
    let u := MkUrl fp.Server fp.Fid args
    let r := env.Upload tr0 u manifest.Name buf.utf8ByteSize false "application/json"
    let tr1 := tr0 ++ [Event.upload u manifest.Name buf.utf8ByteSize false "application/json" r]
    match r with
    | .fail e => (some e, tr1)
    | .ok _ => (none, tr1)

/-- State of the chunk loop of `UploadFilePart` when it is left: the error that ended it
(if any), the FilePart, the manifest built so far and the trace. -/
structure LoopOut where
  e : Option GoError
  fp : FilePart
  cm : ChunkManifest
  trace : List Event
deriving DecidableEq, Repr

/-- The loop `for i := int64(0); i < chunks; i++` of `UploadFilePart`, with `n` the
number of iterations still to run (`chunks - i`). On a failed chunk the chunks recorded
so far are handed to `DeleteChunks` and the loop is left with the error. (The index stays
below `chunks` and `i * sw.ChunkSize` does not exceed the file size, so neither leaves the
`int64` range.) -/
def chunkLoop (env : Env) (sw : Seaweed) (baseName : String) :
    Nat → Nat → FilePart → ChunkManifest → List Event → LoopOut
  | 0, _, fp, cm, tr => ⟨none, fp, cm, tr⟩
  | n + 1, i, fp, cm, tr =>
    let c := uploadChunk env sw fp (baseName ++ "-" ++ toString (i + 1)) tr
    match c.e with
    | some e => ⟨some e, c.fp, cm, c.trace ++ [Event.deleteChunks cm fp.Collection]⟩
    | none =>
      chunkLoop env sw baseName n (i + 1) c.fp
        { cm with Chunks := cm.Chunks ++ [⟨(i : Int) * sw.ChunkSize, c.size, c.fid⟩] } c.trace

/-- What `UploadFilePart` returns (`ret` and `err`, each possibly nil), with the FilePart
after the call (it is passed by pointer) and the trace after the call. -/
structure UploadOut where
  ret : Option SubmitResult
  err : Option GoError
  fp : FilePart
  trace : List Event
deriving DecidableEq, Repr

/-- The first lines of `UploadFilePart`, `if fp.Fid == ""`: a FilePart without a fid is
assigned one, with the public address of its server. The result is the error that makes
`UploadFilePart` return at once (if any), the FilePart and the trace at that point. -/
def assignIfNoFid (env : Env) (sw : Seaweed) (fp : FilePart) (tr : List Event) :
    Option GoError × FilePart × List Event :=
  if fp.Fid = "" then
    match Assign env sw 1 fp.Collection fp.Ttl tr with
    | (.fail err, tr1) => (some err, fp, tr1)
    | (.ok ret, tr1) => (none, { fp with Server := ret.PublicUrl, Fid := ret.Fid }, tr1)
  else (none, fp, tr)

/-- The next lines of `UploadFilePart`, `if fp.Server == ""`: a FilePart without a server
has it looked up. A failed lookup leaves the server empty. -/
def lookupIfNoServer (env : Env) (fp : FilePart) (tr : List Event) :
    Option GoError × FilePart × List Event :=
  if fp.Server = "" then
    let r := env.LookupFileId tr fp.Fid fp.Collection false
    let tr1 := tr ++ [Event.lookup fp.Fid fp.Collection false r]
    match r with
    | .fail err => (some err, fp, tr1)
    | .ok server => (none, { fp with Server := server }, tr1)
  else (none, fp, tr)

/-- The lines of `UploadFilePart` before the chunking decision: the fid and the server of
the file are resolved. The result is the error that makes `UploadFilePart` return at once
(if any), the FilePart and the trace at that point. -/
def resolveTarget (env : Env) (sw : Seaweed) (fp : FilePart) (tr : List Event) :
    Option GoError × FilePart × List Event :=
  match assignIfNoFid env sw fp tr with
  | (some err, fp1, tr1) => (some err, fp1, tr1)
  | (none, fp1, tr1) => lookupIfNoServer env fp1 tr1

/-- The end of `UploadFilePart`: the SubmitResult built from the error of the upload. -/
def submitResultOf (fp : FilePart) (err : Option GoError) : SubmitResult :=
  match err with
  | some e => { Error := e }
  | none =>
    { MimeType := fp.MimeType, Ext := fp.Ext, Fid := fp.Fid ++ fp.Ext,
      Size := fp.FileSize, FileUrl := fp.Server ++ "/" ++ fp.Fid ++ fp.Ext }

/-- The line `chunks := fp.FileSize/sw.ChunkSize + 1` of `UploadFilePart`, an `int64`.
(It is computed only when both operands are positive, where the division of Go, which
truncates, and the division of integers here agree.) -/
def chunkCount (sw : Seaweed) (fp : FilePart) : Int :=
  wrap64 (fp.FileSize / sw.ChunkSize + 1)

/-- `UploadFilePart` from the chunking decision on, for a FilePart whose fid and server
are known. The result `none` is that of a `make([]*ChunkInfo, 0, chunks)` that does not
succeed. -/
def uploadResolved (env : Env) (sw : Seaweed) (fp : FilePart) (tr : List Event) :
    Option UploadOut :=
  let baseName := env.pathBase fp.FileName
  if sw.ChunkSize > 0 ∧ fp.FileSize > sw.ChunkSize then
    let chunks := chunkCount sw fp
    if makeSucceeds env chunks = false then none
    else
      let cm : ChunkManifest :=
        { Name := baseName, Size := fp.FileSize, Mime := fp.MimeType, Chunks := [] }
      let l := chunkLoop env sw baseName chunks.toNat 0 fp cm tr
      match l.e with
      | some e => some ⟨none, some e, l.fp, l.trace⟩
      | none =>
        match uploadManifest env l.fp l.cm l.trace with
        | (some e, tr1) =>
          some ⟨some (submitResultOf l.fp (some e)), some e, l.fp,
            tr1 ++ [Event.deleteChunks l.cm l.fp.Collection]⟩
        | (none, tr1) => some ⟨some (submitResultOf l.fp none), none, l.fp, tr1⟩
  else
    let fileUrl := MkUrl fp.Server fp.Fid (tsArgs fp)
    let r := env.Upload tr fileUrl baseName fp.Reader fp.IsGzipped fp.MimeType
    let tr1 := tr ++ [Event.upload fileUrl baseName fp.Reader fp.IsGzipped fp.MimeType r]
    let fp1 := { fp with Reader := 0 }
    match r with
    | .fail e => some ⟨some (submitResultOf fp1 (some e)), some e, fp1, tr1⟩
    | .ok _ => some ⟨some (submitResultOf fp1 none), none, fp1, tr1⟩

/-- `Seaweed.UploadFilePart` (submit.go). -/
def UploadFilePart (env : Env) (sw : Seaweed) (fp : FilePart) (tr : List Event) :
    Option UploadOut :=
  match resolveTarget env sw fp tr with
  | (some err, fp1, tr1) => some ⟨none, some err, fp1, tr1⟩
  | (none, fp1, tr1) => uploadResolved env sw fp1 tr1

/-- `Seaweed.ReplaceFilePart` (submit.go). -/
def ReplaceFilePart (env : Env) (sw : Seaweed) (fp : FilePart) (deleteFirst : Bool)
    (tr : List Event) : Option UploadOut :=
  if deleteFirst = true ∧ fp.Fid ≠ "" then
    UploadFilePart env sw fp (DeleteFile env fp.Fid fp.Collection tr).2
  else UploadFilePart env sw fp tr

/-- What `BatchUploadFileParts` returns, with the trace after the call. -/
structure BatchOut where
  results : List SubmitResult
  err : Option GoError
  trace : List Event
deriving DecidableEq, Repr

/-- The first loop of `BatchUploadFileParts`: a zero SubmitResult per file, with the
file's name and base name. -/
def initResults (env : Env) (files : List FilePart) : List SubmitResult :=
  files.map fun file =>
    { FileName := file.FileName, FileBase := env.filepathBase file.FileName }

/-- The fid that `BatchUploadFileParts` gives the file at `index`. -/
def batchFid (baseFid : String) (index : Nat) : String :=
  if index > 0 then baseFid ++ "_" ++ toString index else baseFid

/-- The copy `file` of the FilePart at `index` as prepared by the second loop of
`BatchUploadFileParts` before it is uploaded. -/
def batchFile (ret : AssignResult) (collection : String) (index : Nat) (file : FilePart) :
    FilePart :=
  { file with Fid := batchFid ret.Fid index, Server := ret.PublicUrl, Collection := collection }

/-- The slot that the second loop of `BatchUploadFileParts` writes for one file, from the
slot of the first loop, the FilePart after its upload and the error of the upload. -/
def batchSlot (ret : AssignResult) (r0 : SubmitResult) (file : FilePart)
    (err : Option GoError) : SubmitResult :=
  { r0 with
    Size := file.FileSize
    Error := match err with
      | some e => e
      | none => r0.Error
    Fid := file.Fid ++ file.Ext
    FileUrl := ret.PublicUrl ++ "/" ++ file.Fid ++ file.Ext
    MimeType := file.MimeType
    Ext := file.Ext }

/-- The second loop of `BatchUploadFileParts`, over the files from `index` on, paired
with their slots. The result `none` is that of an upload that does not return. -/
def batchLoop (env : Env) (sw : Seaweed) (ret : AssignResult) (collection : String) :
    Nat → List (FilePart × SubmitResult) → List Event → Option (List SubmitResult × List Event)
  | _, [], tr => some ([], tr)
  | index, (file, r0) :: rest, tr =>
    match UploadFilePart env sw (batchFile ret collection index file) tr with
    | none => none
    | some o =>
      match batchLoop env sw ret collection (index + 1) rest o.trace with
      | none => none
      | some (rs, tr2) => some (batchSlot ret r0 o.fp o.err :: rs, tr2)

/-- `Seaweed.BatchUploadFileParts` (submit.go). -/
def BatchUploadFileParts (env : Env) (sw : Seaweed) (files : List FilePart)
    (collection ttl : String) (tr : List Event) : Option BatchOut :=
  let results := initResults env files
  match Assign env sw files.length collection ttl tr with
  | (.fail err, tr1) => some ⟨results.map fun r => { r with Error := err }, some err, tr1⟩
  | (.ok ret, tr1) =>
    match batchLoop env sw ret collection 0 (files.zip results) tr1 with
    | none => none
    | some (rs, tr2) => some ⟨rs, none, tr2⟩

/-! ## Descriptions of traces and manifests -/

/-- The call of one chunk assignment, `sw.Assign(1, collection, ttl)`, answered by `r`. -/
def assignCall (sw : Seaweed) (collection ttl : String) (r : Res String) : Event :=
  Event.post sw.Master "/dir/assign" (assignValues 1 collection ttl) r

/-- The call that uploads chunk number `i` (counted from zero) to the place `ret` assigned
to it, handing over `supplied` bytes, answered by `u`. -/
def chunkUploadCall (ret : AssignResult) (baseName : String) (i supplied : Nat)
    (u : Res UploadResult) : Event :=
  Event.upload (MkUrl ret.Url ret.Fid []) (baseName ++ "-" ++ toString (i + 1)) supplied false
    "application/octet-stream" u

/-- `Rounds env sw collection ttl baseName i avail evs cs`: the events `evs` are the calls
of successful chunk rounds, one round after the other, starting with chunk number `i` on a
stream that still yields `avail` bytes: each round is an assignment (for the collection
and ttl of the file) that succeeds, followed by the upload of the chunk to the assigned
place that succeeds; `cs` lists the ChunkInfo recorded for each round. -/
def Rounds (env : Env) (sw : Seaweed) (collection ttl baseName : String) :
    Nat → Nat → List Event → List ChunkInfo → Prop
  | _, _, [], cs => cs = []
  | i, avail, e1 :: e2 :: rest, c :: cs =>
    (∃ r ret ur, e1 = assignCall sw collection ttl r ∧ decodeAssign env r = .ok ret ∧
      e2 = chunkUploadCall ret baseName i (limitedRead avail sw.ChunkSize) (.ok ur) ∧
      c = ⟨(i : Int) * sw.ChunkSize, ur.Size, ret.Fid⟩) ∧
    Rounds env sw collection ttl baseName (i + 1) (avail - limitedRead avail sw.ChunkSize)
      rest cs
  | _, _, _, _ => False

/-- `ChunkFail env sw collection ttl baseName i e evs`: the events `evs` are the calls of a
round for chunk number `i` that fails with error `e`: either the assignment fails with
`e`, or the assignment succeeds and the upload fails with `e`. -/
def ChunkFail (env : Env) (sw : Seaweed) (collection ttl baseName : String) (i : Nat)
    (e : GoError) (evs : List Event) : Prop :=
  (∃ r, evs = [assignCall sw collection ttl r] ∧ decodeAssign env r = .fail e) ∨
  (∃ r ret supplied, evs = [assignCall sw collection ttl r,
      chunkUploadCall ret baseName i supplied (.fail e)] ∧ decodeAssign env r = .ok ret)

/-- The call that uploads the serialized manifest `buf` to the fid of the file with the
`cm` flag, answered by `u`. -/
def manifestUploadCall (fp : FilePart) (cm : ChunkManifest) (buf : String)
    (u : Res UploadResult) : Event :=
  Event.upload (MkUrl fp.Server fp.Fid (tsArgs fp ++ [("cm", "true")])) cm.Name
    buf.utf8ByteSize false "application/json" u

/-- `ManifestFail fp cm e evs`: the events `evs` are the calls of a manifest write of `cm`
that fails with error `e`: either the serialization fails with `e`, or it succeeds and the
upload of the manifest fails with `e`. -/
def ManifestFail (fp : FilePart) (cm : ChunkManifest) (e : GoError) (evs : List Event) :
    Prop :=
  evs = [Event.marshal cm (.fail e)] ∨
  ∃ buf, evs = [Event.marshal cm (.ok buf), manifestUploadCall fp cm buf (.fail e)]

/-- `Tiles a cs b`: taken in order, the byte ranges `[Offset, Offset + Size)` of the
chunks `cs` start at `a`, each starts where the one before ends, and the last ends at
`b`. -/
def Tiles : Int → List ChunkInfo → Int → Prop
  | a, [], b => a = b
  | a, c :: cs, b => c.Offset = a ∧ 0 ≤ c.Size ∧ Tiles (a + c.Size) cs b

/-- An upload that carries the `cm` flag. -/
def isManifestUpload : Event → Bool
  | .upload url _ _ _ _ _ => decide (("cm", "true") ∈ url.args)
  | _ => false

/-- An upload that carries no `cm` flag. -/
def isPlainUpload : Event → Bool
  | .upload url _ _ _ _ _ => decide (("cm", "true") ∉ url.args)
  | _ => false

/-- An assignment request to the master. -/
def isAssign : Event → Bool
  | .post _ path _ _ => path == "/dir/assign"
  | _ => false

/-- A call of `DeleteChunks`. -/
def isDeleteChunks : Event → Bool
  | .deleteChunks _ _ => true
  | _ => false

/-- The manifests handed to `Marshal` in a trace, in order. -/
def marshalled : List Event → List ChunkManifest
  | [] => []
  | .marshal cm _ :: rest => cm :: marshalled rest
  | _ :: rest => marshalled rest

/-- An assignment that succeeds, or an event that is no assignment. -/
def assignSucceeds (env : Env) : Event → Bool
  | .post _ _ _ r =>
    match decodeAssign env r with
    | .ok _ => true
    | .fail _ => false
  | _ => true

/-- An upload without the `cm` flag that succeeds and reports as its size the number of
bytes it was handed, or an event that is no such upload. -/
def uploadReportsSupplied : Event → Bool
  | .upload url _ supplied _ _ r =>
    decide (("cm", "true") ∈ url.args) || decide (r = .ok ⟨(supplied : Int)⟩)
  | _ => true

/-- The manifest that `UploadFilePart` builds for the file `fp` from the chunks `cs`. -/
def manifestOf (env : Env) (fp : FilePart) (cs : List ChunkInfo) : ChunkManifest :=
  { Name := env.pathBase fp.FileName, Size := fp.FileSize, Mime := fp.MimeType, Chunks := cs }

/-- The call of the single plain upload of the file `fp`, answered by `r`. -/
def plainUploadCall (env : Env) (fp : FilePart) (r : Res UploadResult) : Event :=
  Event.upload (MkUrl fp.Server fp.Fid (tsArgs fp)) (env.pathBase fp.FileName) fp.Reader
    fp.IsGzipped fp.MimeType r

/-- `ChunkedRun env sw fp tr n o`: the outcome `o` is that of a chunked upload of `n` chunks
of the file `fp`, started after the trace `tr`. The calls it adds to the trace are
successful rounds for the chunks `0 .. k-1`, recorded as `cs`, followed by one of:
a failing round of chunk `k < n` and the call of `DeleteChunks`, the error being returned
without a result; or, with `k = n`, a failing manifest write and the call of `DeleteChunks`,
the error being returned with a result that carries it; or, with `k = n`, the successful
manifest write, no error being returned. -/
def ChunkedRun (env : Env) (sw : Seaweed) (fp : FilePart) (tr : List Event) (n : Nat)
    (o : UploadOut) : Prop :=
  ∃ evs cs reader,
    Rounds env sw fp.Collection fp.Ttl (env.pathBase fp.FileName) 0 fp.Reader evs cs ∧
    o.fp = { fp with Reader := reader } ∧
    ((∃ e failEvs, cs.length < n ∧
        ChunkFail env sw fp.Collection fp.Ttl (env.pathBase fp.FileName) cs.length e failEvs ∧
        o.trace = tr ++ evs ++ failEvs ++ [Event.deleteChunks (manifestOf env fp cs) fp.Collection] ∧
        o.err = some e ∧ o.ret = none) ∨
     (∃ e failEvs, cs.length = n ∧ ManifestFail fp (manifestOf env fp cs) e failEvs ∧
        o.trace = tr ++ evs ++ failEvs ++ [Event.deleteChunks (manifestOf env fp cs) fp.Collection] ∧
        o.err = some e ∧ o.ret = some { Error := e }) ∨
     (∃ buf ur, cs.length = n ∧
        o.trace = tr ++ evs ++ [Event.marshal (manifestOf env fp cs) (.ok buf),
          manifestUploadCall fp (manifestOf env fp cs) buf (.ok ur)] ∧
        o.err = none ∧ o.ret = some (submitResultOf fp none)))

/-- The fids that the successful uploads without the `cm` flag of a trace wrote to, in
order. -/
def uploadedFids : List Event → List String
  | [] => []
  | .upload url _ _ _ _ (.ok _) :: rest =>
    if ("cm", "true") ∈ url.args then uploadedFids rest else url.fid :: uploadedFids rest
  | _ :: rest => uploadedFids rest

/-- An assignment that fails, or an upload without the `cm` flag that fails. -/
def chunkCallFailed (env : Env) : Event → Bool
  | .post _ _ _ r =>
    match decodeAssign env r with
    | .ok _ => false
    | .fail _ => true
  | .upload url _ _ _ _ (.fail _) => decide (("cm", "true") ∉ url.args)
  | _ => false

/-- `CoveredBy cs S`: the byte ranges `[Offset, Offset + Size)` of the chunks `cs`, taken in
order, tile `[0, S)`; their sizes add up to `S`; and every byte position of `[0, S)` lies
in the range of exactly one chunk. -/
def CoveredBy (cs : List ChunkInfo) (S : Int) : Prop :=
  Tiles 0 cs S ∧ (cs.map fun c => c.Size).sum = S ∧
  ∀ x, 0 ≤ x → x < S →
    ∃! k : Fin cs.length, (cs.get k).Offset ≤ x ∧ x < (cs.get k).Offset + (cs.get k).Size

/-- In the call `UploadFilePart fp` started after `tr`, every assignment made after the
trace `tr1` succeeds and every upload without the `cm` flag made after `tr1` succeeds and
reports as its size the number of bytes it was handed. -/
def HonestChunkCalls (env : Env) (sw : Seaweed) (fp : FilePart) (tr tr1 : List Event) : Prop :=
  ∀ o, UploadFilePart env sw fp tr = some o →
    ∀ ev ∈ o.trace.drop tr1.length, assignSucceeds env ev = true ∧ uploadReportsSupplied ev = true

/-- The call `UploadFilePart fp` started after `tr` returns, after the trace `tr1` it hands
exactly one manifest to `Marshal` (the first step of `uploadManifest`), and the chunks of
that manifest cover `[0, fp.FileSize)`. -/
def HandsCoveringManifest (env : Env) (sw : Seaweed) (fp : FilePart) (tr tr1 : List Event) :
    Prop :=
  ∃ o cm, UploadFilePart env sw fp tr = some o ∧ marshalled (o.trace.drop tr1.length) = [cm] ∧
    CoveredBy cm.Chunks fp.FileSize

/-- Whenever the call `UploadFilePart fp` started after `tr` returns, after the trace `tr1`
it has handed exactly one manifest to `Marshal` (the first step of `uploadManifest`), and
the chunks of that manifest cover `[0, fp.FileSize)`. -/
def EveryManifestCovers (env : Env) (sw : Seaweed) (fp : FilePart) (tr tr1 : List Event) :
    Prop :=
  ∀ o, UploadFilePart env sw fp tr = some o →
    ∃ cm, marshalled (o.trace.drop tr1.length) = [cm] ∧ CoveredBy cm.Chunks fp.FileSize

/-- A call that failed: an assignment, an upload or a serialization of a manifest that
returned an error. -/
def callFailed (env : Env) : Event → Bool
  | .post _ _ _ r =>
    match decodeAssign env r with
    | .ok _ => false
    | .fail _ => true
  | .upload _ _ _ _ _ (.fail _) => true
  | .marshal _ (.fail _) => true
  | _ => false

/-- `OwnAddress env sw fp fp1 tr tr1`: the FilePart `fp1` carries the own fid and server of
the file `fp`, as resolved on the trace `tr`, which the resolution extends to `tr1`. The
fid is the one `fp` came with or, when it came with none, the one returned by the
assignment made first; the server is the one `fp` came with (or the public address
returned by that assignment) or, when that is empty, the one that the lookup of the fid
returned. -/
def OwnAddress (env : Env) (sw : Seaweed) (fp fp1 : FilePart) (tr tr1 : List Event) : Prop :=
  ∃ fid0 server0 ext0,
    ((fp.Fid ≠ "" ∧ fid0 = fp.Fid ∧ server0 = fp.Server ∧ ext0 = []) ∨
     (fp.Fid = "" ∧ ∃ r ret, decodeAssign env r = .ok ret ∧
        ext0 = [assignCall sw fp.Collection fp.Ttl r] ∧ fid0 = ret.Fid ∧
        server0 = ret.PublicUrl)) ∧
    fp1.Fid = fid0 ∧
    ((server0 ≠ "" ∧ fp1.Server = server0 ∧ tr1 = tr ++ ext0) ∨
     (server0 = "" ∧
        tr1 = tr ++ ext0 ++ [Event.lookup fid0 fp.Collection false (.ok fp1.Server)]))

/-- The fids that the successful assignments of a trace returned, in order. -/
def assignedFids (env : Env) : List Event → List String
  | [] => []
  | .post _ _ _ r :: rest =>
    match decodeAssign env r with
    | .ok ret => ret.Fid :: assignedFids env rest
    | .fail _ => assignedFids env rest
  | _ :: rest => assignedFids env rest

/-- `ChunkingDecision env sw fp fp1 tr tr1`: what `UploadFilePart` does for the file `fp`
once the resolution of fid and server has turned it into `fp1` at the trace `tr1`.
(1) Unless the chunk size is positive and the file size exceeds it, the call returns and
makes exactly one call after `tr1`: the plain upload to the server and fid of the file,
whose arguments carry no `cm` flag; no assignment, no serialization of a manifest and no
upload with the `cm` flag is made. (2) If the chunk size is positive, the file size exceeds
it and the slice of the chunks can be allocated, the call returns, it is a chunked run of
as many chunks as the computed count, and the first call it makes after `tr1` is the
assignment for the first chunk. (3) If the chunk size is positive and the file size
exceeds it but the slice of the chunks cannot be allocated, the call does not return, and
neither path is taken. -/
def ChunkingDecision (env : Env) (sw : Seaweed) (fp fp1 : FilePart) (tr tr1 : List Event) :
    Prop :=
  (¬ (0 < sw.ChunkSize ∧ sw.ChunkSize < fp.FileSize) →
    ∃ o r, UploadFilePart env sw fp tr = some o ∧
      o.trace = tr1 ++ [plainUploadCall env fp1 r] ∧
      ("cm", "true") ∉ tsArgs fp1 ∧
      (o.trace.drop tr1.length).filter isAssign = [] ∧
      marshalled (o.trace.drop tr1.length) = [] ∧
      (o.trace.drop tr1.length).filter isManifestUpload = []) ∧
  ((0 < sw.ChunkSize ∧ sw.ChunkSize < fp.FileSize) →
    makeSucceeds env (chunkCount sw fp) = true →
    ∃ o, UploadFilePart env sw fp tr = some o ∧
      ChunkedRun env sw fp1 tr1 (chunkCount sw fp).toNat o ∧
      ∃ r rest, o.trace = tr1 ++ assignCall sw fp.Collection fp.Ttl r :: rest) ∧
  ((0 < sw.ChunkSize ∧ sw.ChunkSize < fp.FileSize) →
    makeSucceeds env (chunkCount sw fp) = false →
    UploadFilePart env sw fp tr = none)

/-- `SuccessResult env sw fp fp1 tr tr1 o`: the outcome `o` of `UploadFilePart` for the file
`fp` (which the resolution of fid and server turned into `fp1` at the trace `tr1`) carries
a result with an empty `Error`, with `Fid` the own fid of the file followed by the
extension, with `Size` the declared size, and with `FileUrl` the server of the file, a
slash, the own fid and the extension. The `Fid` is the fid of a chunk of the manifest
written by the call exactly when the master assigned that very value to a chunk. -/
def SuccessResult (env : Env) (sw : Seaweed) (fp fp1 : FilePart) (tr tr1 : List Event)
    (o : UploadOut) : Prop :=
  ∃ res, o.ret = some res ∧ res.Error = "" ∧ res.Fid = fp1.Fid ++ fp.Ext ∧
    res.Size = fp.FileSize ∧ res.FileUrl = fp1.Server ++ "/" ++ fp1.Fid ++ fp.Ext ∧
    OwnAddress env sw fp fp1 tr tr1 ∧
    ((∃ cm ∈ marshalled (o.trace.drop tr1.length), ∃ c ∈ cm.Chunks, res.Fid = c.Fid) ↔
      fp1.Fid ++ fp.Ext ∈ assignedFids env (o.trace.drop tr1.length))

/-- `RolledBack env sw fp fp1 tr1 o e`: the outcome `o` of the chunked upload of `fp`
(which the resolution of fid and server turned into `fp1` at the trace `tr1`) is a
rollback after a failure with error `e`. The error returned is `e`. The calls made after
`tr1` are the successful rounds of the chunks `0 .. k-1`, then the failing step (for `k`
below the chunk count the round of chunk `k`, whose assignment or upload fails with `e`;
for `k` equal to the chunk count the manifest write, which fails with `e`), then one call
of `DeleteChunks`, and nothing after it. `DeleteChunks` is called exactly once, with the
manifest whose chunks are those recorded for the rounds `0 .. k-1`; its chunk fids are
exactly the fids written by the successful chunk uploads, in order. -/
def RolledBack (env : Env) (sw : Seaweed) (fp fp1 : FilePart) (tr1 : List Event)
    (o : UploadOut) (e : GoError) : Prop :=
  o.err = some e ∧
  ∃ rounds cs failEvs,
    o.trace = tr1 ++ rounds ++ failEvs
      ++ [Event.deleteChunks (manifestOf env fp1 cs) fp.Collection] ∧
    Rounds env sw fp.Collection fp.Ttl (env.pathBase fp.FileName) 0 fp.Reader rounds cs ∧
    ((cs.length < (fp.FileSize / sw.ChunkSize + 1).toNat ∧
        ChunkFail env sw fp.Collection fp.Ttl (env.pathBase fp.FileName) cs.length e failEvs) ∨
     (cs.length = (fp.FileSize / sw.ChunkSize + 1).toNat ∧
        ManifestFail fp1 (manifestOf env fp1 cs) e failEvs)) ∧
    ((o.trace.drop tr1.length).filter isDeleteChunks).length = 1 ∧
    (manifestOf env fp1 cs).Chunks.map (fun c => c.Fid)
      = uploadedFids (o.trace.drop tr1.length)

/-- `FailureRollsBack env sw fp fp1 tr tr1`: every chunked upload of `fp` that returns and
in which a call failed (the assignment or the upload of a chunk, or the serialization or
the upload of the manifest) returns an error and is a rollback after that failure; every
chunked upload that returns an error is a rollback after a failure with that error; and a
chunked upload that returns no error made no call that failed and no call of
`DeleteChunks`. -/
def FailureRollsBack (env : Env) (sw : Seaweed) (fp fp1 : FilePart) (tr tr1 : List Event) :
    Prop :=
  ∀ o, UploadFilePart env sw fp tr = some o →
    ((∃ ev ∈ o.trace.drop tr1.length, callFailed env ev = true) →
      ∃ e, RolledBack env sw fp fp1 tr1 o e) ∧
    (∀ e, o.err = some e → RolledBack env sw fp fp1 tr1 o e) ∧
    (o.err = none →
      (∀ ev ∈ o.trace.drop tr1.length, callFailed env ev = false) ∧
      (o.trace.drop tr1.length).filter isDeleteChunks = [])

/-- `OrderedRun env sw fp fp1 tr1 o`: in the calls that the chunked upload of `fp` (which
the resolution of fid and server turned into `fp1` at the trace `tr1`) made after `tr1`,
(1) whatever precedes an assignment request is a sequence of complete successful rounds,
each an assignment followed by the successful upload of its chunk, so the upload of a
chunk has completed when the next assignment is requested; (2) whatever precedes an
upload with the `cm` flag is the successful rounds of all the chunks, as many as the
computed chunk count, followed by the serialization of the manifest of these chunks;
(3) if an assignment or an upload without the `cm` flag failed, no upload with the `cm`
flag was made. -/
def OrderedRun (env : Env) (sw : Seaweed) (fp fp1 : FilePart) (tr1 : List Event)
    (o : UploadOut) : Prop :=
  (∀ pre ev post, o.trace.drop tr1.length = pre ++ ev :: post → isAssign ev = true →
    ∃ cs, Rounds env sw fp.Collection fp.Ttl (env.pathBase fp.FileName) 0 fp.Reader pre cs) ∧
  (∀ pre ev post, o.trace.drop tr1.length = pre ++ ev :: post → isManifestUpload ev = true →
    ∃ rounds cs buf, pre = rounds ++ [Event.marshal (manifestOf env fp1 cs) (.ok buf)] ∧
      Rounds env sw fp.Collection fp.Ttl (env.pathBase fp.FileName) 0 fp.Reader rounds cs ∧
      (cs.length : Int) = chunkCount sw fp) ∧
  ((∃ ev ∈ o.trace.drop tr1.length, chunkCallFailed env ev = true) →
    ∀ ev ∈ o.trace.drop tr1.length, isManifestUpload ev = false)

/-- `BatchChain env sw ret collection i files tr outs tr2`: the uploads of the files `files`,
which stand at the indices `i, i+1, ...` of a batch assigned `ret`, made one after the
other in index order, each on the trace that the one before left, starting on `tr`, return
the outcomes `outs` and leave the trace `tr2`. -/
def BatchChain (env : Env) (sw : Seaweed) (ret : AssignResult) (collection : String) :
    Nat → List FilePart → List Event → List UploadOut → List Event → Prop
  | _, [], tr, [], tr2 => tr2 = tr
  | i, f :: fs, tr, o :: os, tr2 =>
    UploadFilePart env sw (batchFile ret collection i f) tr = some o ∧
    BatchChain env sw ret collection (i + 1) fs o.trace os tr2
  | _, _, _, _, _ => False

/-- If the file is to be chunked, the slice of its chunks can be allocated. -/
def countFits (env : Env) (sw : Seaweed) (fp : FilePart) : Prop :=
  0 < sw.ChunkSize → sw.ChunkSize < fp.FileSize → makeSucceeds env (chunkCount sw fp) = true

/-- `BatchIsolated env sw files collection ret tr1 out`: the batch upload of `files`, whose
assignment `ret` left the trace `tr1`, returns no error and one slot per file, in input
order; the files are uploaded one after the other in index order, whatever the outcome of
the uploads before; the slot of a file whose upload failed carries the text of the failure
in `Error`; the slot of a file whose upload succeeded has an empty `Error`, and its `Fid`
(the fid derived for the file, then the extension) and `FileUrl` (the public address, a
slash, that fid and the extension) are not empty. So a non-empty `Error` marks a failed
upload, and a failed upload whose failure has a non-empty text has a non-empty `Error`. -/
def BatchIsolated (env : Env) (sw : Seaweed) (files : List FilePart) (collection : String)
    (ret : AssignResult) (tr1 : List Event) (out : BatchOut) : Prop :=
  out.err = none ∧ out.results.length = files.length ∧
  ∃ outs, BatchChain env sw ret collection 0 files tr1 outs out.trace ∧
    outs.length = files.length ∧
    ∀ k f o, files[k]? = some f → outs[k]? = some o →
      ∃ slot, out.results[k]? = some slot ∧ slot.FileName = f.FileName ∧
        slot.Size = f.FileSize ∧
        (∀ e, o.err = some e → slot.Error = e) ∧
        (slot.Error ≠ "" → o.err ≠ none) ∧
        ((∀ e, o.err = some e → e ≠ "") → (slot.Error ≠ "" ↔ o.err ≠ none)) ∧
        (o.err = none → slot.Error = "" ∧
          slot.Fid = batchFid ret.Fid k ++ f.Ext ∧ slot.Fid ≠ "" ∧
          slot.FileUrl = ret.PublicUrl ++ "/" ++ batchFid ret.Fid k ++ f.Ext ∧
          slot.FileUrl ≠ "")

/-- The trace on which `ReplaceFilePart` starts the upload: the trace after the call of
`DeleteFile` when `deleteFirst` is set and the FilePart has a fid, the trace it was given
otherwise. -/
def traceAfterDelete (env : Env) (fp : FilePart) (deleteFirst : Bool) (tr : List Event) :
    List Event :=
  if deleteFirst = true ∧ fp.Fid ≠ "" then (DeleteFile env fp.Fid fp.Collection tr).2 else tr

/-- `DeleteCalls fp tr trd`: the trace `trd` is `tr` followed by the calls of one
`DeleteFile` for the fid of `fp`: the lookup of the fid and, when the lookup succeeds, the
delete at the address found, whatever its answer. -/
def DeleteCalls (fp : FilePart) (tr trd : List Event) : Prop :=
  (∃ e, trd = tr ++ [Event.lookup fp.Fid fp.Collection false (.fail e)]) ∨
  (∃ url d, trd = tr ++ [Event.lookup fp.Fid fp.Collection false (.ok url), Event.delete url d])

/-- `ReplaceIsDeleteThenUpload env sw fp deleteFirst tr`: `ReplaceFilePart` returns exactly
what `UploadFilePart` returns for the same FilePart, started on the trace
`traceAfterDelete`; every call of the upload comes after that trace; with `deleteFirst` set
and a fid present that trace is `tr` followed by the calls of the delete, whatever their
outcome, and otherwise it is `tr` itself, no delete being issued. -/
def ReplaceIsDeleteThenUpload (env : Env) (sw : Seaweed) (fp : FilePart) (deleteFirst : Bool)
    (tr : List Event) : Prop :=
  ReplaceFilePart env sw fp deleteFirst tr
    = UploadFilePart env sw fp (traceAfterDelete env fp deleteFirst tr) ∧
  (∀ o, ReplaceFilePart env sw fp deleteFirst tr = some o →
    ∃ ext, o.trace = traceAfterDelete env fp deleteFirst tr ++ ext) ∧
  (deleteFirst = true → fp.Fid ≠ "" →
    DeleteCalls fp tr (traceAfterDelete env fp deleteFirst tr)) ∧
  (deleteFirst = false ∨ fp.Fid = "" → traceAfterDelete env fp deleteFirst tr = tr)

/-! ## Concrete collaborators and files -/

/-- A cluster on which every call succeeds and every upload reports the number of bytes it
was handed. The master answers the `k`-th call of the trace with the fid `3,k`. The
platform has the allocator limit `2^48` and a heap that provides objects up to `2^32`
bytes. -/
def okEnv : Env where
  Post := fun tr _ _ _ => .ok (toString tr.length)
  Unmarshal := fun blob => .ok ⟨"3," ++ blob, "vol1:8080", "pub1:8080", 1, ""⟩
  LookupFileId := fun _ _ _ _ => .ok "vol1:8080"
  Upload := fun _ _ _ n _ _ => .ok ⟨n⟩
  Delete := fun _ _ => .ok ()
  Marshal := fun _ => .ok "m"
  pathBase := id
  filepathBase := id
  maxAlloc := 2 ^ 48
  heapProvides := fun n => decide (n ≤ 2 ^ 32)

/-- The cluster `okEnv`, except that the upload made when the trace already holds `k`
uploads fails. -/
def uploadFailsAt (k : Nat) : Env :=
  { okEnv with
    Upload := fun tr _ _ n _ _ =>
      if (tr.filter fun ev => isPlainUpload ev || isManifestUpload ev).length = k then
        .fail "disk full"
      else .ok ⟨n⟩ }

/-- The cluster `okEnv`, except that every lookup and every delete fails. -/
def deleteFails : Env :=
  { okEnv with
    LookupFileId := fun _ _ _ _ => .fail "no such volume"
    Delete := fun _ _ => .fail "gone" }

/-- A client with chunks of two bytes. -/
def swTwo : Seaweed := ⟨"master:9333", 2⟩

/-- A client with chunks of one byte. -/
def swOne : Seaweed := ⟨"master:9333", 1⟩

/-- A client that does not chunk. -/
def swPlain : Seaweed := ⟨"master:9333", 0⟩

/-- A file of four bytes with a fid and a server. -/
def fourBytes : FilePart :=
  ⟨4, "a.txt", 4, false, "text/plain", ".txt", 0, "", "", "pub1:8080", "7,aa"⟩

/-- A file of five bytes with a fid and a server. -/
def fiveBytes : FilePart :=
  ⟨5, "b.txt", 5, false, "text/plain", ".txt", 0, "", "", "pub1:8080", "7,bb"⟩

/-- A file of the largest size an `int64` can declare, with a fid and a server. -/
def hugeFile : FilePart :=
  ⟨2 ^ 63 - 1, "huge.bin", 2 ^ 63 - 1, false, "", ".bin", 0, "", "", "pub1:8080", "7,cc"⟩

/-- The outcome of an upload, or an empty outcome where the upload does not return. -/
def outcomeOf (r : Option UploadOut) (fp : FilePart) : UploadOut :=
  r.getD ⟨none, none, fp, []⟩

/-- A file of one byte without fid or server. -/
def fileA : FilePart := ⟨1, "a.txt", 1, false, "text/plain", ".txt", 0, "", "", "", ""⟩

/-- A file of two bytes without fid or server. -/
def fileB : FilePart := ⟨2, "b.txt", 2, false, "text/plain", ".txt", 0, "", "", "", ""⟩

/-- A file of three bytes without fid or server. -/
def fileC : FilePart := ⟨3, "c.txt", 3, false, "text/plain", ".txt", 0, "", "", "", ""⟩

/-- Three small files without fid or server. -/
def threeFiles : List FilePart := [fileA, fileB, fileC]

/-- The answer of the master of `okEnv` to the first call of a trace. -/
def firstAssign : AssignResult := ⟨"3,0", "vol1:8080", "pub1:8080", 1, ""⟩

/-- The trace after the batch assignment for three files of the collection `pics`. -/
def afterBatchAssign : List Event :=
  [Event.post "master:9333" "/dir/assign" [("count", "3"), ("collection", "pics")] (.ok "0")]

/-- The outcome of a batch upload, or an empty outcome where it does not return. -/
def batchOutcomeOf (r : Option BatchOut) : BatchOut :=
  r.getD ⟨[], none, []⟩

/-- A file of `2^46` bytes, with a fid and a server. -/
def largeFile : FilePart :=
  ⟨2 ^ 46, "large.bin", 2 ^ 46, false, "", ".bin", 0, "", "", "pub1:8080", "7,ee"⟩

/-- A file of `2^46` bytes without fid or server. -/
def largeNew : FilePart :=
  ⟨2 ^ 46, "large.bin", 2 ^ 46, false, "", ".bin", 0, "", "", "", ""⟩

/-- A file of five bytes without fid, server or extension. -/
def plainName : FilePart := ⟨5, "data", 5, false, "", "", 0, "", "", "", ""⟩

/-- The cluster `okEnv`, except that the master answers every assignment with the fid
`7,dd`. -/
def sameFid : Env :=
  { okEnv with Unmarshal := fun _ => .ok ⟨"7,dd", "vol1:8080", "pub1:8080", 1, ""⟩ }

/-- The cluster `okEnv`, except that the master answers every assignment with an empty fid
(and a count of one). -/
def emptyFid : Env :=
  { okEnv with Unmarshal := fun _ => .ok ⟨"", "vol1:8080", "pub1:8080", 1, ""⟩ }

/-- The cluster `okEnv`, except that the master answers an assignment for one fid with a
count of zero and no error text, and any other assignment with the fid `3,0`. -/
def silentMaster : Env :=
  { okEnv with
    Post := fun _ _ _ values => .ok ((values.lookup "count").getD "")
    Unmarshal := fun blob =>
      if blob = "1" then .ok ⟨"", "", "", 0, ""⟩
      else .ok ⟨"3,0", "vol1:8080", "pub1:8080", 1, ""⟩ }

/-- A file of two bytes with a fid and a server. -/
def twoBytes : FilePart :=
  ⟨2, "c.txt", 2, false, "text/plain", ".txt", 0, "", "", "pub1:8080", "7,ff"⟩

/-- A file of five bytes without extension that comes with the fid `3,0` and a server. -/
def ownFid : FilePart := ⟨5, "data", 5, false, "", "", 0, "", "", "pub1:8080", "3,0"⟩


/-! ## Lemmas on the chunk loop -/

theorem uploadChunk_cases (env : Env) (sw : Seaweed) (fp : FilePart) (name : String)
    (tr : List Event) :
    (∃ r e, decodeAssign env r = .fail e ∧
      uploadChunk env sw fp name tr
        = ⟨"", 0, some e, fp, tr ++ [assignCall sw fp.Collection fp.Ttl r]⟩) ∨
    (∃ r ret u, decodeAssign env r = .ok ret ∧
      (uploadChunk env sw fp name tr).trace
        = tr ++ [assignCall sw fp.Collection fp.Ttl r,
            Event.upload (MkUrl ret.Url ret.Fid []) name (limitedRead fp.Reader sw.ChunkSize)
              false "application/octet-stream" u] ∧
      (uploadChunk env sw fp name tr).fp
        = { fp with Reader := fp.Reader - limitedRead fp.Reader sw.ChunkSize } ∧
      (uploadChunk env sw fp name tr).fid = ret.Fid ∧
      ((∃ e, u = .fail e ∧ (uploadChunk env sw fp name tr).e = some e) ∨
       (∃ ur, u = .ok ur ∧ (uploadChunk env sw fp name tr).e = none ∧
          (uploadChunk env sw fp name tr).size = ur.Size))) := by
  unfold uploadChunk Assign
  simp only []
  cases hd : decodeAssign env
      (env.Post tr sw.Master "/dir/assign" (assignValues 1 fp.Collection fp.Ttl)) with
  | fail e =>
    left
    exact ⟨_, e, hd, rfl⟩
  | ok ret =>
    right
    refine ⟨_, ret, env.Upload (tr ++ [Event.post sw.Master "/dir/assign"
      (assignValues 1 fp.Collection fp.Ttl)
      (env.Post tr sw.Master "/dir/assign" (assignValues 1 fp.Collection fp.Ttl))])
      (MkUrl ret.Url ret.Fid []) name (limitedRead fp.Reader sw.ChunkSize) false
      "application/octet-stream", hd, ?_⟩
    cases hu : env.Upload (tr ++ [Event.post sw.Master "/dir/assign"
      (assignValues 1 fp.Collection fp.Ttl)
      (env.Post tr sw.Master "/dir/assign" (assignValues 1 fp.Collection fp.Ttl))])
      (MkUrl ret.Url ret.Fid []) name (limitedRead fp.Reader sw.ChunkSize) false
      "application/octet-stream" with
    | fail e => simp [assignCall, hu]
    | ok ur => simp [assignCall, hu]

theorem chunkLoop_succ (env : Env) (sw : Seaweed) (b : String) (n i : Nat) (fp : FilePart)
    (cm : ChunkManifest) (tr : List Event) :
    chunkLoop env sw b (n + 1) i fp cm tr
      = match (uploadChunk env sw fp (b ++ "-" ++ toString (i + 1)) tr).e with
        | some e => ⟨some e, (uploadChunk env sw fp (b ++ "-" ++ toString (i + 1)) tr).fp, cm,
            (uploadChunk env sw fp (b ++ "-" ++ toString (i + 1)) tr).trace
              ++ [Event.deleteChunks cm fp.Collection]⟩
        | none =>
          chunkLoop env sw b n (i + 1)
            (uploadChunk env sw fp (b ++ "-" ++ toString (i + 1)) tr).fp
            { cm with Chunks := cm.Chunks ++ [⟨(i : Int) * sw.ChunkSize,
                (uploadChunk env sw fp (b ++ "-" ++ toString (i + 1)) tr).size,
                (uploadChunk env sw fp (b ++ "-" ++ toString (i + 1)) tr).fid⟩] }
            (uploadChunk env sw fp (b ++ "-" ++ toString (i + 1)) tr).trace := by
  simp only [chunkLoop]

theorem chunkLoop_spec (env : Env) (sw : Seaweed) (b : String) :
    ∀ (n i : Nat) (fp : FilePart) (cm : ChunkManifest) (tr : List Event),
    ∃ evs cs reader,
      Rounds env sw fp.Collection fp.Ttl b i fp.Reader evs cs ∧
      (chunkLoop env sw b n i fp cm tr).cm = { cm with Chunks := cm.Chunks ++ cs } ∧
      (chunkLoop env sw b n i fp cm tr).fp = { fp with Reader := reader } ∧
      (((chunkLoop env sw b n i fp cm tr).e = none ∧ cs.length = n ∧
          (chunkLoop env sw b n i fp cm tr).trace = tr ++ evs) ∨
       (∃ e failEvs, (chunkLoop env sw b n i fp cm tr).e = some e ∧ cs.length < n ∧
          ChunkFail env sw fp.Collection fp.Ttl b (i + cs.length) e failEvs ∧
          (chunkLoop env sw b n i fp cm tr).trace
            = tr ++ evs ++ failEvs
                ++ [Event.deleteChunks (chunkLoop env sw b n i fp cm tr).cm fp.Collection])) := by
  intro n
  induction n with
  | zero =>
    intro i fp cm tr
    exact ⟨[], [], fp.Reader, by simp [Rounds], by simp [chunkLoop], by simp [chunkLoop],
      Or.inl (by simp [chunkLoop])⟩
  | succ n ih =>
    intro i fp cm tr
    rw [chunkLoop_succ]
    have hcases := uploadChunk_cases env sw fp (b ++ "-" ++ toString (i + 1)) tr
    generalize uploadChunk env sw fp (b ++ "-" ++ toString (i + 1)) tr = c at hcases ⊢
    obtain ⟨cfid, csize, ce, cfp, ctr⟩ := c
    rcases hcases with ⟨r, e, hd, hc⟩ | ⟨r, ret, u, hd, htr, hfp, hfid, hu⟩
    · simp only [ChunkOut.mk.injEq] at hc
      obtain ⟨-, -, rfl, rfl, rfl⟩ := hc
      exact ⟨[], [], cfp.Reader, by simp [Rounds], by simp, by simp,
        Or.inr ⟨e, [assignCall sw cfp.Collection cfp.Ttl r], by simp, by simp,
          Or.inl ⟨r, rfl, hd⟩, by simp⟩⟩
    · simp only at htr hfp hfid hu
      subst htr hfp hfid
      rcases hu with ⟨e, rfl, rfl⟩ | ⟨ur, rfl, rfl, rfl⟩
      · exact ⟨[], [], fp.Reader - limitedRead fp.Reader sw.ChunkSize, by simp [Rounds],
          by simp, by simp,
          Or.inr ⟨e, [assignCall sw fp.Collection fp.Ttl r,
            chunkUploadCall ret b i (limitedRead fp.Reader sw.ChunkSize) (.fail e)],
            by simp, by simp, Or.inr ⟨r, ret, _, rfl, hd⟩, by simp [chunkUploadCall]⟩⟩
      · simp only
        obtain ⟨evs, cs, reader, hR, hcm, hfp2, hrest⟩ :=
          ih (i + 1) { fp with Reader := fp.Reader - limitedRead fp.Reader sw.ChunkSize }
            { cm with Chunks := cm.Chunks ++ [⟨(i : Int) * sw.ChunkSize, ur.Size, ret.Fid⟩] }
            (tr ++ [assignCall sw fp.Collection fp.Ttl r,
              Event.upload (MkUrl ret.Url ret.Fid []) (b ++ "-" ++ toString (i + 1))
                (limitedRead fp.Reader sw.ChunkSize) false "application/octet-stream"
                (.ok ur)])
        simp only at hR hcm hfp2 hrest
        refine ⟨assignCall sw fp.Collection fp.Ttl r ::
            chunkUploadCall ret b i (limitedRead fp.Reader sw.ChunkSize) (.ok ur) :: evs,
          ⟨(i : Int) * sw.ChunkSize, ur.Size, ret.Fid⟩ :: cs, reader, ?_, ?_, ?_, ?_⟩
        · exact ⟨⟨r, ret, ur, rfl, hd, rfl, rfl⟩, hR⟩
        · rw [hcm]; simp
        · rw [hfp2]
        · rcases hrest with ⟨he, hlen, htrace⟩ | ⟨e, failEvs, he, hlen, hfail, htrace⟩
          · left
            refine ⟨he, by simp [hlen], ?_⟩
            rw [htrace]; simp [chunkUploadCall]
          · right
            refine ⟨e, failEvs, he, by simp [hlen], ?_, ?_⟩
            · have : i + (cs.length + 1) = i + 1 + cs.length := by omega
              simpa [this] using hfail
            · rw [htrace]; simp [chunkUploadCall]

theorem wrap64_of_lt {x : Int} (h0 : 0 ≤ x) (h1 : x < 2 ^ 63) : wrap64 x = x := by
  unfold wrap64
  norm_num at h1 ⊢
  omega

theorem wrap64_two_pow : wrap64 (2 ^ 63) = -(2 ^ 63) := by
  unfold wrap64
  norm_num

theorem uploadManifest_cases (env : Env) (fp : FilePart) (cm : ChunkManifest)
    (tr : List Event) :
    (∃ e failEvs, ManifestFail fp cm e failEvs ∧
      uploadManifest env fp cm tr = (some e, tr ++ failEvs)) ∨
    (∃ buf ur, uploadManifest env fp cm tr
      = (none, tr ++ [Event.marshal cm (.ok buf), manifestUploadCall fp cm buf (.ok ur)])) := by
  unfold uploadManifest
  cases hm : env.Marshal cm with
  | fail e => exact Or.inl ⟨e, _, Or.inl rfl, by simp⟩
  | ok buf =>
    simp only
    cases hu : env.Upload (tr ++ [Event.marshal cm (.ok buf)])
        (MkUrl fp.Server fp.Fid (tsArgs fp ++ [("cm", "true")])) cm.Name buf.utf8ByteSize false
        "application/json" with
    | fail e =>
      exact Or.inl ⟨e, _, Or.inr ⟨buf, rfl⟩, by simp [manifestUploadCall]⟩
    | ok ur => exact Or.inr ⟨buf, ur, by simp [manifestUploadCall]⟩

theorem chunkCount_of_fit (sw : Seaweed) (fp : FilePart) (hC : 0 < sw.ChunkSize)
    (hS : sw.ChunkSize < fp.FileSize) (hfit : fp.FileSize / sw.ChunkSize + 1 ≤ int64Max) :
    chunkCount sw fp = fp.FileSize / sw.ChunkSize + 1 := by
  have hq0 : 0 ≤ fp.FileSize / sw.ChunkSize := Int.ediv_nonneg (by omega) (by omega)
  unfold int64Max at hfit
  exact wrap64_of_lt (by omega) (by omega)

theorem chunkCount_neg_of_not_fit (sw : Seaweed) (fp : FilePart) (hC : 0 < sw.ChunkSize)
    (hS : sw.ChunkSize < fp.FileSize) (hmax : fp.FileSize ≤ int64Max)
    (hfit : ¬ fp.FileSize / sw.ChunkSize + 1 ≤ int64Max) : chunkCount sw fp < 0 := by
  have hq1 : fp.FileSize / sw.ChunkSize ≤ fp.FileSize := Int.ediv_le_self _ (by omega)
  unfold int64Max at hmax hfit
  have : fp.FileSize / sw.ChunkSize + 1 = 2 ^ 63 := by omega
  unfold chunkCount
  rw [this, wrap64_two_pow]
  norm_num

theorem makeSucceeds_nonneg (env : Env) (n : Int) (h : makeSucceeds env n = true) : 0 ≤ n := by
  unfold makeSucceeds at h
  simp only [Bool.and_eq_true, decide_eq_true_eq] at h
  exact h.1.1.1

theorem uploadResolved_chunked_count (env : Env) (sw : Seaweed) (fp : FilePart)
    (tr : List Event) (hC : 0 < sw.ChunkSize) (hS : sw.ChunkSize < fp.FileSize)
    (hmk : makeSucceeds env (chunkCount sw fp) = true) :
    ∃ o, uploadResolved env sw fp tr = some o ∧
      ChunkedRun env sw fp tr (chunkCount sw fp).toNat o := by
  unfold uploadResolved
  simp only [gt_iff_lt, hC, hS, and_self, if_true]
  have hmk2 : ¬ (makeSucceeds env (chunkCount sw fp) = false) := by rw [hmk]; simp
  simp only [hmk2, if_false]
  obtain ⟨evs, cs, reader, hR, hcm, hfp, hrest⟩ :=
    chunkLoop_spec env sw (env.pathBase fp.FileName) (chunkCount sw fp).toNat 0 fp
      { Name := env.pathBase fp.FileName, Size := fp.FileSize, Mime := fp.MimeType, Chunks := [] }
      tr
  generalize chunkLoop env sw (env.pathBase fp.FileName) (chunkCount sw fp).toNat 0
    fp { Name := env.pathBase fp.FileName, Size := fp.FileSize, Mime := fp.MimeType, Chunks := [] }
    tr = l at hcm hfp hrest ⊢
  obtain ⟨le, lfp, lcm, ltr⟩ := l
  simp only [List.nil_append] at hcm hfp hrest
  subst hcm hfp
  rcases hrest with ⟨rfl, hlen, rfl⟩ | ⟨e, failEvs, rfl, hlen, hfail, rfl⟩
  · simp only
    rcases uploadManifest_cases env { fp with Reader := reader }
        (manifestOf env fp cs) (tr ++ evs) with ⟨e, failEvs, hmf, hum⟩ | ⟨buf, ur, hum⟩
    · simp only [manifestOf] at hum
      rw [hum]
      exact ⟨_, rfl, evs, cs, reader, hR, rfl, Or.inr (Or.inl ⟨e, failEvs, hlen, hmf,
        by simp [manifestOf], rfl, by simp [submitResultOf]⟩)⟩
    · simp only [manifestOf] at hum
      rw [hum]
      exact ⟨_, rfl, evs, cs, reader, hR, rfl, Or.inr (Or.inr ⟨buf, ur, hlen,
        by simp [manifestOf, manifestUploadCall, tsArgs], rfl, by simp [submitResultOf]⟩)⟩
  · exact ⟨_, rfl, evs, cs, reader, hR, rfl,
      Or.inl ⟨e, failEvs, hlen, by simpa using hfail, by simp [manifestOf], rfl, rfl⟩⟩

theorem uploadResolved_no_make (env : Env) (sw : Seaweed) (fp : FilePart) (tr : List Event)
    (hC : 0 < sw.ChunkSize) (hS : sw.ChunkSize < fp.FileSize)
    (hmk : makeSucceeds env (chunkCount sw fp) = false) :
    uploadResolved env sw fp tr = none := by
  unfold uploadResolved
  simp [hC, hS, hmk]

theorem uploadResolved_chunked_some (env : Env) (sw : Seaweed) (fp : FilePart)
    (tr : List Event) (o : UploadOut) (hC : 0 < sw.ChunkSize)
    (hS : sw.ChunkSize < fp.FileSize) (ho : uploadResolved env sw fp tr = some o) :
    makeSucceeds env (chunkCount sw fp) = true ∧
    ChunkedRun env sw fp tr (chunkCount sw fp).toNat o := by
  cases hmk : makeSucceeds env (chunkCount sw fp) with
  | true =>
    obtain ⟨o2, ho2, hrun⟩ := uploadResolved_chunked_count env sw fp tr hC hS hmk
    rw [ho] at ho2
    simp only [Option.some.injEq] at ho2
    subst ho2
    exact ⟨rfl, hrun⟩
  | false =>
    rw [uploadResolved_no_make env sw fp tr hC hS hmk] at ho
    exact Option.noConfusion ho

theorem chunkCount_of_make (env : Env) (sw : Seaweed) (fp : FilePart) (hC : 0 < sw.ChunkSize)
    (hS : sw.ChunkSize < fp.FileSize) (hmax : fp.FileSize ≤ int64Max)
    (hmk : makeSucceeds env (chunkCount sw fp) = true) :
    chunkCount sw fp = fp.FileSize / sw.ChunkSize + 1 := by
  by_cases hfit : fp.FileSize / sw.ChunkSize + 1 ≤ int64Max
  · exact chunkCount_of_fit sw fp hC hS hfit
  · have := chunkCount_neg_of_not_fit sw fp hC hS hmax hfit
    have := makeSucceeds_nonneg env _ hmk
    omega

theorem uploadResolved_chunked (env : Env) (sw : Seaweed) (fp : FilePart) (tr : List Event)
    (o : UploadOut) (hC : 0 < sw.ChunkSize) (hS : sw.ChunkSize < fp.FileSize)
    (hmax : fp.FileSize ≤ int64Max) (ho : uploadResolved env sw fp tr = some o) :
    chunkCount sw fp = fp.FileSize / sw.ChunkSize + 1 ∧
    ChunkedRun env sw fp tr (fp.FileSize / sw.ChunkSize + 1).toNat o := by
  obtain ⟨hmk, hrun⟩ := uploadResolved_chunked_some env sw fp tr o hC hS ho
  have hcc := chunkCount_of_make env sw fp hC hS hmax hmk
  rw [hcc] at hrun
  exact ⟨hcc, hrun⟩

/-! ## Lemmas on the resolution of the fid and server -/

/-- The calls that the resolution of fid and server can make. -/
theorem assignIfNoFid_spec (env : Env) (sw : Seaweed) (fp : FilePart) (tr : List Event) :
    ∃ err server fid ext,
      assignIfNoFid env sw fp tr = (err, { fp with Server := server, Fid := fid }, tr ++ ext) ∧
      (fp.Fid ≠ "" → err = none ∧ fid = fp.Fid ∧ server = fp.Server ∧ ext = []) ∧
      (fp.Fid = "" → ∃ r, ext = [assignCall sw fp.Collection fp.Ttl r] ∧
        ((∃ e, decodeAssign env r = .fail e ∧ err = some e ∧ server = fp.Server ∧ fid = fp.Fid) ∨
         (∃ ret, decodeAssign env r = .ok ret ∧ err = none ∧ server = ret.PublicUrl ∧
            fid = ret.Fid))) := by
  unfold assignIfNoFid
  by_cases hfid : fp.Fid = ""
  · rw [if_pos hfid]
    simp only [Assign]
    generalize env.Post tr sw.Master "/dir/assign" (assignValues 1 fp.Collection fp.Ttl) = r
    cases hd : decodeAssign env r with
    | fail e =>
      refine ⟨some e, fp.Server, fp.Fid, [assignCall sw fp.Collection fp.Ttl r], ?_, ?_, ?_⟩
      · simp [assignCall]
      · intro h; exact absurd hfid h
      · intro _
        exact ⟨r, rfl, Or.inl ⟨e, hd, rfl, rfl, rfl⟩⟩
    | ok ret =>
      refine ⟨none, ret.PublicUrl, ret.Fid, [assignCall sw fp.Collection fp.Ttl r], ?_, ?_, ?_⟩
      · simp [assignCall]
      · intro h; exact absurd hfid h
      · intro _
        exact ⟨r, rfl, Or.inr ⟨ret, hd, rfl, rfl, rfl⟩⟩
  · rw [if_neg hfid]
    exact ⟨none, fp.Server, fp.Fid, [], by simp, fun _ => ⟨rfl, rfl, rfl, rfl⟩,
      fun h => absurd h hfid⟩

theorem lookupIfNoServer_spec (env : Env) (fp : FilePart) (tr : List Event) :
    ∃ err server ext,
      lookupIfNoServer env fp tr = (err, { fp with Server := server }, tr ++ ext) ∧
      (fp.Server ≠ "" → err = none ∧ server = fp.Server ∧ ext = []) ∧
      (fp.Server = "" → ∃ r, ext = [Event.lookup fp.Fid fp.Collection false r] ∧
        ((∃ e, r = .fail e ∧ err = some e ∧ server = "") ∨
         (r = .ok server ∧ err = none))) := by
  unfold lookupIfNoServer
  by_cases hsrv : fp.Server = ""
  · rw [if_pos hsrv]
    simp only
    generalize env.LookupFileId tr fp.Fid fp.Collection false = r
    cases r with
    | fail e =>
      refine ⟨some e, "", [Event.lookup fp.Fid fp.Collection false (.fail e)], ?_, ?_, ?_⟩
      · simp only [Prod.mk.injEq, true_and, and_true]
        rw [← hsrv]
      · intro h; exact absurd hsrv h
      · intro _; exact ⟨_, rfl, Or.inl ⟨e, rfl, rfl, rfl⟩⟩
    | ok server =>
      refine ⟨none, server, [Event.lookup fp.Fid fp.Collection false (.ok server)], rfl, ?_, ?_⟩
      · intro h; exact absurd hsrv h
      · intro _; exact ⟨_, rfl, Or.inr ⟨rfl, rfl⟩⟩
  · rw [if_neg hsrv]
    exact ⟨none, fp.Server, [], by simp, fun _ => ⟨rfl, rfl, rfl⟩, fun h => absurd h hsrv⟩

theorem resolveTarget_fields (env : Env) (sw : Seaweed) (fp : FilePart) (tr : List Event) :
    ∃ server fid ext,
      (resolveTarget env sw fp tr).2.1 = { fp with Server := server, Fid := fid } ∧
      (resolveTarget env sw fp tr).2.2 = tr ++ ext ∧
      (fp.Fid ≠ "" → fid = fp.Fid) ∧
      (fp.Fid ≠ "" → fp.Server ≠ "" →
        server = fp.Server ∧ ext = [] ∧ (resolveTarget env sw fp tr).1 = none) ∧
      (∀ ev ∈ ext, isManifestUpload ev = false ∧ isPlainUpload ev = false ∧
        isDeleteChunks ev = false ∧ marshalled [ev] = []) := by
  unfold resolveTarget
  obtain ⟨err, server, fid, ext, h1, h2, h3⟩ := assignIfNoFid_spec env sw fp tr
  rw [h1]
  have hext : ∀ ev ∈ ext, isManifestUpload ev = false ∧ isPlainUpload ev = false ∧
      isDeleteChunks ev = false ∧ marshalled [ev] = [] := by
    intro ev hev
    by_cases hfid : fp.Fid = ""
    · obtain ⟨r, rfl, -⟩ := h3 hfid
      simp only [List.mem_singleton] at hev
      subst hev
      simp [assignCall, isManifestUpload, isPlainUpload, isDeleteChunks, marshalled]
    · obtain ⟨-, -, -, rfl⟩ := h2 hfid
      simp at hev
  cases err with
  | some e =>
    exact ⟨server, fid, ext, rfl, rfl, fun h => (h2 h).2.1,
      fun h => by simpa using (h2 h).1, hext⟩
  | none =>
    simp only
    obtain ⟨err2, server2, ext2, k1, k2, k3⟩ :=
      lookupIfNoServer_spec env { fp with Server := server, Fid := fid } (tr ++ ext)
    rw [k1]
    refine ⟨server2, fid, ext ++ ext2, rfl, by simp, fun h => (h2 h).2.1, ?_, ?_⟩
    · intro hf hs
      obtain ⟨-, -, rfl, rfl⟩ := h2 hf
      obtain ⟨rfl, rfl, rfl⟩ := k2 hs
      exact ⟨rfl, rfl, rfl⟩
    · intro ev hev
      rcases List.mem_append.1 hev with hev | hev
      · exact hext ev hev
      · by_cases hsrv : server = ""
        · obtain ⟨r, rfl, -⟩ := k3 hsrv
          simp only [List.mem_singleton] at hev
          subst hev
          simp [isManifestUpload, isPlainUpload, isDeleteChunks, marshalled]
        · obtain ⟨-, -, rfl⟩ := k2 hsrv
          simp at hev

theorem UploadFilePart_of_resolved (env : Env) (sw : Seaweed) (fp fp1 : FilePart)
    (tr tr1 : List Event) (hres : resolveTarget env sw fp tr = (none, fp1, tr1)) :
    UploadFilePart env sw fp tr = uploadResolved env sw fp1 tr1 := by
  unfold UploadFilePart
  rw [hres]

theorem resolved_fields (env : Env) (sw : Seaweed) (fp fp1 : FilePart)
    (tr tr1 : List Event) (err : Option GoError)
    (hres : resolveTarget env sw fp tr = (err, fp1, tr1)) :
    fp1.Reader = fp.Reader ∧ fp1.FileName = fp.FileName ∧ fp1.FileSize = fp.FileSize ∧
    fp1.IsGzipped = fp.IsGzipped ∧ fp1.MimeType = fp.MimeType ∧ fp1.Ext = fp.Ext ∧
    fp1.ModTime = fp.ModTime ∧ fp1.Collection = fp.Collection ∧ fp1.Ttl = fp.Ttl := by
  obtain ⟨server, fid, ext, h1, -⟩ := resolveTarget_fields env sw fp tr
  rw [hres] at h1
  simp only at h1
  subst h1
  simp

theorem uploadResolved_plain (env : Env) (sw : Seaweed) (fp : FilePart) (tr : List Event)
    (h : ¬ (0 < sw.ChunkSize ∧ sw.ChunkSize < fp.FileSize)) :
    ∃ r, uploadResolved env sw fp tr
      = some ⟨some (submitResultOf { fp with Reader := 0 }
            (match r with
              | .fail e => some e
              | .ok _ => none)),
          (match r with
            | .fail e => some e
            | .ok _ => none),
          { fp with Reader := 0 }, tr ++ [plainUploadCall env fp r]⟩ := by
  unfold uploadResolved
  have h2 : ¬ (sw.ChunkSize > 0 ∧ fp.FileSize > sw.ChunkSize) := h
  rw [if_neg h2]
  simp only
  generalize env.Upload tr (MkUrl fp.Server fp.Fid (tsArgs fp)) (env.pathBase fp.FileName)
    fp.Reader fp.IsGzipped fp.MimeType = r
  cases r with
  | fail e => exact ⟨.fail e, rfl⟩
  | ok ur => exact ⟨.ok ur, rfl⟩

theorem resolveTarget_ok (env : Env) (sw : Seaweed) (fp fp1 : FilePart)
    (tr tr1 : List Event) (hres : resolveTarget env sw fp tr = (none, fp1, tr1)) :
    OwnAddress env sw fp fp1 tr tr1 := by
  unfold resolveTarget at hres
  obtain ⟨err, server, fid, ext, h1, h2, h3⟩ := assignIfNoFid_spec env sw fp tr
  rw [h1] at hres
  cases err with
  | some e => simp at hres
  | none =>
    simp only at hres
    obtain ⟨err2, server2, ext2, k1, k2, k3⟩ :=
      lookupIfNoServer_spec env { fp with Server := server, Fid := fid } (tr ++ ext)
    rw [k1] at hres
    simp only [Prod.mk.injEq] at hres
    obtain ⟨rfl, rfl, rfl⟩ := hres
    refine ⟨fid, server, ext, ?_, rfl, ?_⟩
    · by_cases hfid : fp.Fid = ""
      · obtain ⟨r, rfl, hr⟩ := h3 hfid
        rcases hr with ⟨e, -, he, -⟩ | ⟨ret, hd, -, rfl, rfl⟩
        · exact Option.noConfusion he
        · exact Or.inr ⟨hfid, r, ret, hd, rfl, rfl, rfl⟩
      · obtain ⟨-, rfl, rfl, rfl⟩ := h2 hfid
        exact Or.inl ⟨hfid, rfl, rfl, rfl⟩
    · by_cases hsrv : server = ""
      · obtain ⟨r, rfl, hr⟩ := k3 hsrv
        rcases hr with ⟨e, -, he, -⟩ | ⟨rfl, -⟩
        · exact Option.noConfusion he
        · exact Or.inr ⟨hsrv, rfl⟩
      · obtain ⟨-, rfl, rfl⟩ := k2 hsrv
        exact Or.inl ⟨hsrv, rfl, by simp⟩

/-! ## Lemmas on tilings -/

theorem tiles_le : ∀ (cs : List ChunkInfo) (a b : Int), Tiles a cs b → a ≤ b := by
  intro cs
  induction cs with
  | nil => intro a b h; simp only [Tiles] at h; omega
  | cons c cs ih =>
    intro a b h
    simp only [Tiles] at h
    have := ih _ _ h.2.2
    omega

theorem tiles_bounds : ∀ (cs : List ChunkInfo) (a b : Int), Tiles a cs b →
    ∀ c ∈ cs, a ≤ c.Offset ∧ 0 ≤ c.Size ∧ c.Offset + c.Size ≤ b := by
  intro cs
  induction cs with
  | nil => intro a b _ c hc; simp at hc
  | cons d cs ih =>
    intro a b h c hc
    simp only [Tiles] at h
    rcases List.mem_cons.1 hc with rfl | hc
    · have := tiles_le _ _ _ h.2.2
      omega
    · have := ih _ _ h.2.2 c hc
      omega

theorem tiles_sum : ∀ (cs : List ChunkInfo) (a b : Int), Tiles a cs b →
    (cs.map (fun c => c.Size)).sum = b - a := by
  intro cs
  induction cs with
  | nil => intro a b h; simp only [Tiles] at h; simp [h]
  | cons c cs ih =>
    intro a b h
    simp only [Tiles] at h
    have := ih _ _ h.2.2
    simp only [List.map_cons, List.sum_cons, this]
    omega

theorem tiles_cover : ∀ (cs : List ChunkInfo) (a b : Int), Tiles a cs b →
    ∀ x, a ≤ x → x < b →
      ∃! k : Fin cs.length, (cs.get k).Offset ≤ x ∧ x < (cs.get k).Offset + (cs.get k).Size := by
  intro cs
  induction cs with
  | nil => intro a b h x h1 h2; simp only [Tiles] at h; omega
  | cons c cs ih =>
    intro a b h x h1 h2
    simp only [Tiles] at h
    obtain ⟨hoff, hsz, hrest⟩ := h
    by_cases hx : x < a + c.Size
    · refine ⟨⟨0, by simp⟩, ?_, ?_⟩
      · simp only [List.get_eq_getElem, List.getElem_cons_zero]
        omega
      · rintro ⟨k, hk⟩ hk2
        cases k with
        | zero => rfl
        | succ k =>
          exfalso
          simp only [List.get_eq_getElem, List.getElem_cons_succ] at hk2
          have hk3 : k < cs.length := by simpa using hk
          have hmem : cs[k] ∈ cs := List.getElem_mem hk3
          have := tiles_bounds _ _ _ hrest _ hmem
          omega
    · obtain ⟨k, hk, huniq⟩ := ih _ _ hrest x (by omega) h2
      refine ⟨⟨k.1 + 1, by simp⟩, ?_, ?_⟩
      · simpa using hk
      · rintro ⟨j, hj⟩ hj2
        cases j with
        | zero =>
          exfalso
          simp only [List.get_eq_getElem, List.getElem_cons_zero] at hj2
          omega
        | succ j =>
          have := huniq ⟨j, by simpa using hj⟩ (by simpa using hj2)
          simp only [Fin.mk.injEq, add_left_inj]
          exact congrArg Fin.val this

/-! ## Lemmas on successful rounds -/

theorem rounds_nil_chunks (env : Env) (sw : Seaweed) (coll ttl b : String) (i avail : Nat)
    (evs : List Event) (h : Rounds env sw coll ttl b i avail evs []) : evs = [] := by
  rcases evs with _ | ⟨e1, _ | ⟨e2, rest⟩⟩ <;> simp [Rounds] at h ⊢

theorem rounds_cons_chunks (env : Env) (sw : Seaweed) (coll ttl b : String) (i avail : Nat)
    (evs : List Event) (c : ChunkInfo) (cs : List ChunkInfo)
    (h : Rounds env sw coll ttl b i avail evs (c :: cs)) :
    ∃ r ret ur rest, decodeAssign env r = .ok ret ∧
      evs = assignCall sw coll ttl r ::
        chunkUploadCall ret b i (limitedRead avail sw.ChunkSize) (.ok ur) :: rest ∧
      c = ⟨(i : Int) * sw.ChunkSize, ur.Size, ret.Fid⟩ ∧
      Rounds env sw coll ttl b (i + 1) (avail - limitedRead avail sw.ChunkSize) rest cs := by
  rcases evs with _ | ⟨e1, _ | ⟨e2, rest⟩⟩
  · simp [Rounds] at h
  · simp [Rounds] at h
  · simp only [Rounds] at h
    obtain ⟨⟨r, ret, ur, rfl, hd, rfl, rfl⟩, hrest⟩ := h
    exact ⟨r, ret, ur, rest, hd, rfl, rfl, hrest⟩

theorem rounds_events (env : Env) (sw : Seaweed) (coll ttl b : String) :
    ∀ (cs : List ChunkInfo) (i avail : Nat) (evs : List Event),
    Rounds env sw coll ttl b i avail evs cs →
    ∀ ev ∈ evs, (∃ r ret, ev = assignCall sw coll ttl r ∧ decodeAssign env r = .ok ret) ∨
      (∃ ret j n ur, ev = chunkUploadCall ret b j n (.ok ur)) := by
  intro cs
  induction cs with
  | nil =>
    intro i avail evs h ev hev
    rw [rounds_nil_chunks env sw coll ttl b i avail evs h] at hev
    simp at hev
  | cons c cs ih =>
    intro i avail evs h ev hev
    obtain ⟨r, ret, ur, rest, hd, rfl, -, hrest⟩ := rounds_cons_chunks _ _ _ _ _ _ _ _ _ _ h
    rcases List.mem_cons.1 hev with rfl | hev
    · exact Or.inl ⟨r, ret, rfl, hd⟩
    rcases List.mem_cons.1 hev with rfl | hev
    · exact Or.inr ⟨ret, i, _, ur, rfl⟩
    · exact ih _ _ _ hrest ev hev

theorem rounds_tiles (env : Env) (sw : Seaweed) (coll ttl b : String) (S : Int)
    (hC : 0 < sw.ChunkSize) :
    ∀ (cs : List ChunkInfo) (i avail : Nat) (evs : List Event),
    Rounds env sw coll ttl b i avail evs cs →
    (∀ ev ∈ evs, uploadReportsSupplied ev = true) →
    (avail : Int) + (i : Int) * sw.ChunkSize = S →
    (i : Int) + (cs.length : Int) = S / sw.ChunkSize + 1 →
    Tiles ((i : Int) * sw.ChunkSize) cs S := by
  intro cs
  induction cs with
  | nil =>
    intro i avail evs _ _ hav hcnt
    exfalso
    have h1 : S < (S / sw.ChunkSize + 1) * sw.ChunkSize := Int.lt_ediv_add_one_mul_self S hC
    simp only [List.length_nil, Nat.cast_zero, add_zero] at hcnt
    rw [← hcnt] at h1
    have : (0 : Int) ≤ (avail : Int) := Int.ofNat_zero_le _
    omega
  | cons c cs ih =>
    intro i avail evs h hhon hav hcnt
    obtain ⟨r, ret, ur, rest, hd, rfl, rfl, hrest⟩ := rounds_cons_chunks _ _ _ _ _ _ _ _ _ _ h
    have hsz : ur = ⟨((limitedRead avail sw.ChunkSize : Nat) : Int)⟩ := by
      have := hhon (chunkUploadCall ret b i (limitedRead avail sw.ChunkSize) (.ok ur))
        (by simp)
      simpa [uploadReportsSupplied, chunkUploadCall, MkUrl] using this
    subst hsz
    have hrest_hon : ∀ ev ∈ rest, uploadReportsSupplied ev = true := by
      intro ev hev
      exact hhon ev (by simp [hev])
    have hCn : ((sw.ChunkSize.toNat : Nat) : Int) = sw.ChunkSize := Int.toNat_of_nonneg hC.le
    by_cases hfull : sw.ChunkSize.toNat ≤ avail
    · have hlr : limitedRead avail sw.ChunkSize = sw.ChunkSize.toNat := by
        unfold limitedRead; omega
      rw [hlr] at hrest ⊢
      have hih := ih (i + 1) (avail - sw.ChunkSize.toNat) rest hrest hrest_hon
        (by push_cast [Nat.cast_sub hfull]; rw [hCn]; linarith)
        (by simp only [List.length_cons] at hcnt; push_cast at hcnt ⊢; linarith)
      refine ⟨rfl, Int.ofNat_zero_le _, ?_⟩
      have heq : ((i + 1 : Nat) : Int) * sw.ChunkSize
          = (i : Int) * sw.ChunkSize + ((sw.ChunkSize.toNat : Nat) : Int) := by
        push_cast; rw [hCn]; ring
      rw [heq] at hih
      exact hih
    · have hlr : limitedRead avail sw.ChunkSize = avail := by
        unfold limitedRead; omega
      rw [hlr] at hrest ⊢
      have havlt : (avail : Int) < sw.ChunkSize := by omega
      have hdiv : S / sw.ChunkSize = i := by
        rw [← hav, Int.add_mul_ediv_right _ _ (by omega : sw.ChunkSize ≠ 0),
          Int.ediv_eq_zero_of_lt (Int.ofNat_zero_le _) havlt]
        simp
      have hlen : cs.length = 0 := by
        simp only [List.length_cons] at hcnt
        push_cast at hcnt
        omega
      have hcs : cs = [] := List.length_eq_zero.1 hlen
      subst hcs
      refine ⟨rfl, Int.ofNat_zero_le _, ?_⟩
      simp only [Tiles]
      linarith

/-! ## Lemmas on traces -/

theorem marshalled_append (xs ys : List Event) :
    marshalled (xs ++ ys) = marshalled xs ++ marshalled ys := by
  induction xs with
  | nil => rfl
  | cons x xs ih => cases x <;> simp [marshalled, ih]

theorem marshalled_eq_nil (xs : List Event) (h : ∀ ev ∈ xs, marshalled [ev] = []) :
    marshalled xs = [] := by
  induction xs with
  | nil => rfl
  | cons x xs ih =>
    have hx := h x (by simp)
    have hxs := ih (fun ev hev => h ev (by simp [hev]))
    have := marshalled_append [x] xs
    simp only [List.singleton_append] at this
    rw [this, hx, hxs]
    rfl

theorem rounds_marshalled (env : Env) (sw : Seaweed) (coll ttl b : String)
    (cs : List ChunkInfo) (i avail : Nat) (evs : List Event)
    (h : Rounds env sw coll ttl b i avail evs cs) : marshalled evs = [] := by
  apply marshalled_eq_nil
  intro ev hev
  rcases rounds_events env sw coll ttl b cs i avail evs h ev hev with
    ⟨r, ret, rfl, -⟩ | ⟨ret, j, n, ur, rfl⟩
  · simp [assignCall, marshalled]
  · simp [chunkUploadCall, marshalled]

theorem chunkFail_not_honest (env : Env) (sw : Seaweed) (coll ttl b : String) (i : Nat)
    (e : GoError) (evs : List Event) (h : ChunkFail env sw coll ttl b i e evs) :
    ∃ ev ∈ evs, ¬ (assignSucceeds env ev = true ∧ uploadReportsSupplied ev = true) := by
  rcases h with ⟨r, rfl, hd⟩ | ⟨r, ret, n, rfl, hd⟩
  · exact ⟨assignCall sw coll ttl r, by simp, by simp [assignCall, assignSucceeds, hd]⟩
  · exact ⟨chunkUploadCall ret b i n (.fail e), by simp,
      by simp [chunkUploadCall, uploadReportsSupplied, MkUrl]⟩

theorem manifestFail_tail (fp : FilePart) (cm : ChunkManifest) (e : GoError)
    (evs : List Event) (h : ManifestFail fp cm e evs) (coll : String) :
    marshalled (evs ++ [Event.deleteChunks cm coll]) = [cm] ∧
    (evs ++ [Event.deleteChunks cm coll]).filter isPlainUpload = [] ∧
    (evs ++ [Event.deleteChunks cm coll]).filter isAssign = [] := by
  rcases h with rfl | ⟨buf, rfl⟩ <;>
    simp [marshalled, manifestUploadCall, isPlainUpload, isAssign, MkUrl]

theorem chunkCount_resolved (env : Env) (sw : Seaweed) (fp fp1 : FilePart)
    (tr tr1 : List Event) (err : Option GoError)
    (hres : resolveTarget env sw fp tr = (err, fp1, tr1)) :
    chunkCount sw fp1 = chunkCount sw fp := by
  have h := (resolved_fields env sw fp fp1 tr tr1 err hres).2.2.1
  unfold chunkCount
  rw [h]

/-- A chunked upload returns when the slice of its chunks can be allocated. -/
theorem chunked_upload_returns (env : Env) (sw : Seaweed) (fp fp1 : FilePart)
    (tr tr1 : List Event) (hC : 0 < sw.ChunkSize) (hS : sw.ChunkSize < fp.FileSize)
    (hres : resolveTarget env sw fp tr = (none, fp1, tr1))
    (hmk : makeSucceeds env (chunkCount sw fp) = true) :
    ∃ o, UploadFilePart env sw fp tr = some o ∧
      ChunkedRun env sw fp1 tr1 (chunkCount sw fp).toNat o := by
  have hS1 := (resolved_fields env sw fp fp1 tr tr1 none hres).2.2.1
  have hcc := chunkCount_resolved env sw fp fp1 tr tr1 none hres
  rw [UploadFilePart_of_resolved env sw fp fp1 tr tr1 hres, ← hcc]
  exact uploadResolved_chunked_count env sw fp1 tr1 hC (by rw [hS1]; exact hS)
    (by rw [hcc]; exact hmk)

/-- A chunked upload does not return when the slice of its chunks cannot be allocated. -/
theorem chunked_upload_stops (env : Env) (sw : Seaweed) (fp fp1 : FilePart)
    (tr tr1 : List Event) (hC : 0 < sw.ChunkSize) (hS : sw.ChunkSize < fp.FileSize)
    (hres : resolveTarget env sw fp tr = (none, fp1, tr1))
    (hmk : makeSucceeds env (chunkCount sw fp) = false) :
    UploadFilePart env sw fp tr = none := by
  have hS1 := (resolved_fields env sw fp fp1 tr tr1 none hres).2.2.1
  have hcc := chunkCount_resolved env sw fp fp1 tr tr1 none hres
  rw [UploadFilePart_of_resolved env sw fp fp1 tr tr1 hres]
  exact uploadResolved_no_make env sw fp1 tr1 hC (by rw [hS1]; exact hS)
    (by rw [hcc]; exact hmk)

/-- The shape of a chunked upload that returns and in which every chunk call is honest:
all `S / C + 1` rounds succeed, and the recorded chunks tile `[0, S)`. -/
theorem honest_chunked_run (env : Env) (sw : Seaweed) (fp fp1 : FilePart)
    (tr tr1 : List Event) (o : UploadOut) (hC : 0 < sw.ChunkSize)
    (hS : sw.ChunkSize < fp.FileSize) (hmax : fp.FileSize ≤ int64Max)
    (hreader : (fp.Reader : Int) = fp.FileSize)
    (hres : resolveTarget env sw fp tr = (none, fp1, tr1))
    (hhon : HonestChunkCalls env sw fp tr tr1)
    (ho : UploadFilePart env sw fp tr = some o) :
    ∃ evs cs tail, o.trace = tr1 ++ (evs ++ tail) ∧
      Rounds env sw fp.Collection fp.Ttl (env.pathBase fp.FileName) 0 fp.Reader evs cs ∧
      (cs.length : Int) = fp.FileSize / sw.ChunkSize + 1 ∧
      marshalled tail = [manifestOf env fp1 cs] ∧ tail.filter isPlainUpload = [] ∧
      tail.filter isAssign = [] ∧ Tiles 0 cs fp.FileSize := by
  obtain ⟨hR1, hN1, hS1, -, -, -, -, hColl1, hTtl1⟩ :=
    resolved_fields env sw fp fp1 tr tr1 none hres
  have hhon2 := hhon o ho
  rw [UploadFilePart_of_resolved env sw fp fp1 tr tr1 hres] at ho
  obtain ⟨-, evs, cs, reader, hR, hfp, hcases⟩ :=
    uploadResolved_chunked env sw fp1 tr1 o hC (by rw [hS1]; exact hS)
      (by rw [hS1]; exact hmax) ho
  have hq0 : 0 ≤ fp.FileSize / sw.ChunkSize := Int.ediv_nonneg (by omega) (by omega)
  rw [hR1, hN1, hColl1, hTtl1] at hR
  have key : ∀ tail, o.trace = tr1 ++ (evs ++ tail) →
      cs.length = (fp1.FileSize / sw.ChunkSize + 1).toNat →
      (cs.length : Int) = fp.FileSize / sw.ChunkSize + 1 ∧ Tiles 0 cs fp.FileSize := by
    intro tail htr hlen
    have hlen2 : (cs.length : Int) = fp.FileSize / sw.ChunkSize + 1 := by
      rw [hlen, hS1]; omega
    have hevs : ∀ ev ∈ evs, uploadReportsSupplied ev = true := by
      intro ev hev
      refine (hhon2 ev ?_).2
      rw [htr, List.drop_left]
      exact List.mem_append_left _ hev
    have ht := rounds_tiles env sw _ _ _ fp.FileSize hC cs 0 fp.Reader evs hR hevs
      (by simpa using hreader)
      (by rw [hlen2]; simp)
    simp only [Nat.cast_zero, zero_mul] at ht
    exact ⟨hlen2, ht⟩
  rcases hcases with ⟨e, failEvs, hlen, hfail, htr, -, -⟩ |
    ⟨e, failEvs, hlen, hmf, htr, -, -⟩ | ⟨buf, ur, hlen, htr, -, -⟩
  · exfalso
    obtain ⟨ev, hev, hnot⟩ := chunkFail_not_honest _ _ _ _ _ _ _ _ hfail
    apply hnot
    apply hhon2
    rw [htr]
    simp only [List.append_assoc, List.drop_left]
    exact List.mem_append_right _ (List.mem_append_left _ hev)
  · have htr2 : o.trace = tr1 ++ (evs ++ (failEvs ++
        [Event.deleteChunks (manifestOf env fp1 cs) fp1.Collection])) := by
      rw [htr]; simp
    obtain ⟨h1, h2⟩ := key _ htr2 hlen
    obtain ⟨m1, m2, m3⟩ := manifestFail_tail fp1 (manifestOf env fp1 cs) e failEvs hmf
      fp1.Collection
    exact ⟨evs, cs, _, htr2, hR, h1, m1, m2, m3, h2⟩
  · have htr2 : o.trace = tr1 ++ (evs ++ [Event.marshal (manifestOf env fp1 cs) (.ok buf),
        manifestUploadCall fp1 (manifestOf env fp1 cs) buf (.ok ur)]) := by
      rw [htr]; simp
    obtain ⟨h1, h2⟩ := key _ htr2 hlen
    exact ⟨evs, cs, _, htr2, hR, h1,
      by simp [marshalled, manifestUploadCall],
      by simp [manifestUploadCall, isPlainUpload, MkUrl],
      by simp [manifestUploadCall, isAssign], h2⟩

theorem uploadedFids_append (xs ys : List Event) :
    uploadedFids (xs ++ ys) = uploadedFids xs ++ uploadedFids ys := by
  induction xs with
  | nil => rfl
  | cons x xs ih =>
    cases x with
    | upload url fn n gz mime r =>
      cases r with
      | ok ur =>
        by_cases h : ("cm", "true") ∈ url.args <;> simp [uploadedFids, h, ih]
      | fail e => simp [uploadedFids, ih]
    | _ => simp [uploadedFids, ih]

theorem rounds_uploadedFids (env : Env) (sw : Seaweed) (coll ttl b : String) :
    ∀ (cs : List ChunkInfo) (i avail : Nat) (evs : List Event),
    Rounds env sw coll ttl b i avail evs cs → uploadedFids evs = cs.map fun c => c.Fid := by
  intro cs
  induction cs with
  | nil =>
    intro i avail evs h
    rw [rounds_nil_chunks env sw coll ttl b i avail evs h]
    rfl
  | cons c cs ih =>
    intro i avail evs h
    obtain ⟨r, ret, ur, rest, -, rfl, rfl, hrest⟩ := rounds_cons_chunks _ _ _ _ _ _ _ _ _ _ h
    have := ih _ _ _ hrest
    simp [assignCall, chunkUploadCall, uploadedFids, MkUrl, this]

theorem rounds_no_deleteChunks (env : Env) (sw : Seaweed) (coll ttl b : String)
    (cs : List ChunkInfo) (i avail : Nat) (evs : List Event)
    (h : Rounds env sw coll ttl b i avail evs cs) : evs.filter isDeleteChunks = [] := by
  rw [List.filter_eq_nil_iff]
  intro ev hev
  rcases rounds_events env sw coll ttl b cs i avail evs h ev hev with
    ⟨r, ret, rfl, -⟩ | ⟨ret, j, n, ur, rfl⟩
  · simp [assignCall, isDeleteChunks]
  · simp [chunkUploadCall, isDeleteChunks]

theorem chunkFail_tail (env : Env) (sw : Seaweed) (coll ttl b : String) (i : Nat)
    (e : GoError) (evs : List Event) (h : ChunkFail env sw coll ttl b i e evs) :
    uploadedFids evs = [] ∧ evs.filter isDeleteChunks = [] ∧
    evs.filter isManifestUpload = [] ∧ marshalled evs = [] := by
  rcases h with ⟨r, rfl, -⟩ | ⟨r, ret, n, rfl, -⟩ <;>
    simp [assignCall, chunkUploadCall, uploadedFids, isDeleteChunks, isManifestUpload,
      marshalled, MkUrl]

theorem manifestFail_facts (fp : FilePart) (cm : ChunkManifest) (e : GoError)
    (evs : List Event) (h : ManifestFail fp cm e evs) :
    uploadedFids evs = [] ∧ evs.filter isDeleteChunks = [] := by
  rcases h with rfl | ⟨buf, rfl⟩ <;>
    simp [manifestUploadCall, uploadedFids, isDeleteChunks, MkUrl]

theorem rounds_no_failed (env : Env) (sw : Seaweed) (coll ttl b : String)
    (cs : List ChunkInfo) (i avail : Nat) (evs : List Event)
    (h : Rounds env sw coll ttl b i avail evs cs) : ∀ ev ∈ evs, callFailed env ev = false := by
  intro ev hev
  rcases rounds_events env sw coll ttl b cs i avail evs h ev hev with
    ⟨r, ret, rfl, hr⟩ | ⟨ret, j, n, ur, rfl⟩
  · simp [assignCall, callFailed, hr]
  · simp [chunkUploadCall, callFailed]

/-- A chunked run either returns an error after a rollback, or returns no error after calls
that all succeeded, none of them a call of `DeleteChunks`. -/
theorem chunkedRun_rollback (env : Env) (sw : Seaweed) (fp fp1 : FilePart)
    (tr tr1 : List Event) (o : UploadOut)
    (hC : 0 < sw.ChunkSize) (hS : sw.ChunkSize < fp.FileSize) (hmax : fp.FileSize ≤ int64Max)
    (hres : resolveTarget env sw fp tr = (none, fp1, tr1))
    (ho : UploadFilePart env sw fp tr = some o) :
    (∃ e, RolledBack env sw fp fp1 tr1 o e) ∨
    (o.err = none ∧ (∀ ev ∈ o.trace.drop tr1.length, callFailed env ev = false) ∧
      (o.trace.drop tr1.length).filter isDeleteChunks = []) := by
  obtain ⟨hR1, hN1, hS1, -, -, -, -, hColl1, hTtl1⟩ :=
    resolved_fields env sw fp fp1 tr tr1 none hres
  rw [UploadFilePart_of_resolved env sw fp fp1 tr tr1 hres] at ho
  obtain ⟨-, evs, cs, reader, hR, hfp, hcases⟩ :=
    uploadResolved_chunked env sw fp1 tr1 o hC (by rw [hS1]; exact hS)
      (by rw [hS1]; exact hmax) ho
  rw [hR1, hN1, hColl1, hTtl1] at hR
  rw [hS1, hN1, hColl1, hTtl1] at hcases
  have hnd := rounds_no_deleteChunks env sw _ _ _ cs 0 fp.Reader evs hR
  have hfids := rounds_uploadedFids env sw _ _ _ cs 0 fp.Reader evs hR
  have hnf := rounds_no_failed env sw _ _ _ cs 0 fp.Reader evs hR
  rcases hcases with ⟨e2, failEvs, hlen, hfail, htr, herr2, -⟩ |
    ⟨e2, failEvs, hlen, hmf, htr, herr2, -⟩ | ⟨buf, ur, hlen, htr, herr2, -⟩
  · left
    obtain ⟨f1, f2, -, -⟩ := chunkFail_tail _ _ _ _ _ _ _ _ hfail
    refine ⟨e2, herr2, evs, cs, failEvs, htr, hR, Or.inl ⟨hlen, hfail⟩, ?_, ?_⟩
    · rw [htr]
      simp [List.append_assoc, List.filter_append, hnd, f2, isDeleteChunks]
    · rw [htr]
      simp [List.append_assoc, uploadedFids_append, hfids, f1, uploadedFids, manifestOf]
  · left
    obtain ⟨f1, f2⟩ := manifestFail_facts _ _ _ _ hmf
    refine ⟨e2, herr2, evs, cs, failEvs, htr, hR, Or.inr ⟨hlen, hmf⟩, ?_, ?_⟩
    · rw [htr]
      simp [List.append_assoc, List.filter_append, hnd, f2, isDeleteChunks]
    · rw [htr]
      simp [List.append_assoc, uploadedFids_append, hfids, f1, uploadedFids, manifestOf]
  · right
    have hdrop : o.trace.drop tr1.length = evs ++ [Event.marshal (manifestOf env fp1 cs)
        (.ok buf), manifestUploadCall fp1 (manifestOf env fp1 cs) buf (.ok ur)] := by
      rw [htr, List.append_assoc, List.drop_left]
    refine ⟨herr2, ?_, ?_⟩
    · rw [hdrop]
      intro ev hev
      rcases List.mem_append.1 hev with h | h
      · exact hnf ev h
      · simp only [List.mem_cons, List.mem_singleton, List.not_mem_nil, or_false] at h
        rcases h with rfl | rfl
        · rfl
        · rfl
    · rw [hdrop, List.filter_append, hnd]
      simp [manifestUploadCall, isDeleteChunks]

/-! ## Lemmas on the order of the calls -/

theorem split_in_append {α : Type} (xs ys pre post : List α) (x : α)
    (h : xs ++ ys = pre ++ x :: post) :
    (∃ post1, xs = pre ++ x :: post1) ∨ (∃ pre1, pre = xs ++ pre1 ∧ ys = pre1 ++ x :: post) := by
  rcases List.append_eq_append_iff.1 h with ⟨a, h1, h2⟩ | ⟨c, h1, h2⟩
  · exact Or.inr ⟨a, h1, h2⟩
  · cases c with
    | nil =>
      refine Or.inr ⟨[], by simpa using h1.symm, by simpa using h2.symm⟩
    | cons c0 c =>
      simp only [List.cons_append, List.cons.injEq] at h2
      obtain ⟨rfl, -⟩ := h2
      exact Or.inl ⟨c, h1⟩

theorem rounds_prefix_assign (env : Env) (sw : Seaweed) (coll ttl b : String) :
    ∀ (cs : List ChunkInfo) (i avail : Nat) (evs : List Event),
    Rounds env sw coll ttl b i avail evs cs →
    ∀ pre ev post, evs = pre ++ ev :: post → isAssign ev = true →
    ∃ cs1, Rounds env sw coll ttl b i avail pre cs1 := by
  intro cs
  induction cs with
  | nil =>
    intro i avail evs h pre ev post hsplit _
    rw [rounds_nil_chunks env sw coll ttl b i avail evs h] at hsplit
    simp at hsplit
  | cons c cs ih =>
    intro i avail evs h pre ev post hsplit hev
    obtain ⟨r, ret, ur, rest, hd, rfl, rfl, hrest⟩ := rounds_cons_chunks _ _ _ _ _ _ _ _ _ _ h
    rcases pre with _ | ⟨p1, _ | ⟨p2, pre2⟩⟩
    · exact ⟨[], by simp [Rounds]⟩
    · simp only [List.cons_append, List.nil_append, List.cons.injEq] at hsplit
      obtain ⟨-, rfl, -⟩ := hsplit
      simp [chunkUploadCall, isAssign] at hev
    · simp only [List.cons_append, List.cons.injEq] at hsplit
      obtain ⟨rfl, rfl, hsplit⟩ := hsplit
      obtain ⟨cs1, hcs1⟩ := ih _ _ _ hrest pre2 ev post hsplit hev
      exact ⟨_ :: cs1, ⟨r, ret, ur, rfl, hd, rfl, rfl⟩, hcs1⟩

/-- The calls that follow the successful rounds of a chunked upload. -/
theorem chunkedRun_tail (env : Env) (sw : Seaweed) (fp : FilePart) (tr : List Event)
    (n : Nat) (o : UploadOut) (h : ChunkedRun env sw fp tr n o) :
    ∃ evs cs tail, o.trace = tr ++ (evs ++ tail) ∧
      Rounds env sw fp.Collection fp.Ttl (env.pathBase fp.FileName) 0 fp.Reader evs cs ∧
      ((cs.length < n ∧ ∃ r, tail = [assignCall sw fp.Collection fp.Ttl r,
          Event.deleteChunks (manifestOf env fp cs) fp.Collection] ∧
          chunkCallFailed env (assignCall sw fp.Collection fp.Ttl r) = true) ∨
       (cs.length < n ∧ ∃ r ret m e, tail = [assignCall sw fp.Collection fp.Ttl r,
          chunkUploadCall ret (env.pathBase fp.FileName) cs.length m (.fail e),
          Event.deleteChunks (manifestOf env fp cs) fp.Collection] ∧
          decodeAssign env r = .ok ret) ∨
       (cs.length = n ∧ ∃ e, tail = [Event.marshal (manifestOf env fp cs) (.fail e),
          Event.deleteChunks (manifestOf env fp cs) fp.Collection]) ∨
       (cs.length = n ∧ ∃ buf e, tail = [Event.marshal (manifestOf env fp cs) (.ok buf),
          manifestUploadCall fp (manifestOf env fp cs) buf (.fail e),
          Event.deleteChunks (manifestOf env fp cs) fp.Collection]) ∨
       (cs.length = n ∧ ∃ buf ur, tail = [Event.marshal (manifestOf env fp cs) (.ok buf),
          manifestUploadCall fp (manifestOf env fp cs) buf (.ok ur)])) := by
  obtain ⟨evs, cs, reader, hR, -, hcases⟩ := h
  refine ⟨evs, cs, ?_⟩
  rcases hcases with ⟨e, failEvs, hlen, hfail, htr, -, -⟩ |
    ⟨e, failEvs, hlen, hmf, htr, -, -⟩ | ⟨buf, ur, hlen, htr, -, -⟩
  · rcases hfail with ⟨r, rfl, hd⟩ | ⟨r, ret, m, rfl, hd⟩
    · exact ⟨_, by rw [htr]; simp, hR, Or.inl ⟨hlen, r, rfl,
        by simp [assignCall, chunkCallFailed, hd]⟩⟩
    · exact ⟨_, by rw [htr]; simp, hR, Or.inr (Or.inl ⟨hlen, r, ret, m, e, rfl, hd⟩)⟩
  · rcases hmf with rfl | ⟨buf, rfl⟩
    · exact ⟨_, by rw [htr]; simp, hR, Or.inr (Or.inr (Or.inl ⟨hlen, e, rfl⟩))⟩
    · exact ⟨_, by rw [htr]; simp, hR, Or.inr (Or.inr (Or.inr (Or.inl ⟨hlen, buf, e, rfl⟩)))⟩
  · exact ⟨_, by rw [htr]; simp, hR, Or.inr (Or.inr (Or.inr (Or.inr ⟨hlen, buf, ur, rfl⟩)))⟩

theorem split_two {α : Type} (a b : α) (pre post : List α) (x : α)
    (h : [a, b] = pre ++ x :: post) : (pre = [] ∧ x = a) ∨ (pre = [a] ∧ x = b) := by
  rcases pre with _ | ⟨p1, _ | ⟨p2, pre2⟩⟩
  · simp only [List.nil_append, List.cons.injEq] at h
    exact Or.inl ⟨rfl, h.1.symm⟩
  · simp only [List.cons_append, List.nil_append, List.cons.injEq] at h
    obtain ⟨rfl, rfl, -⟩ := h
    exact Or.inr ⟨rfl, rfl⟩
  · simp at h

theorem split_three {α : Type} (a b c : α) (pre post : List α) (x : α)
    (h : [a, b, c] = pre ++ x :: post) :
    (pre = [] ∧ x = a) ∨ (pre = [a] ∧ x = b) ∨ (pre = [a, b] ∧ x = c) := by
  rcases pre with _ | ⟨p1, pre1⟩
  · simp only [List.nil_append, List.cons.injEq] at h
    exact Or.inl ⟨rfl, h.1.symm⟩
  · simp only [List.cons_append, List.cons.injEq] at h
    obtain ⟨rfl, h⟩ := h
    rcases split_two b c pre1 post x h with ⟨rfl, rfl⟩ | ⟨rfl, rfl⟩
    · exact Or.inr (Or.inl ⟨rfl, rfl⟩)
    · exact Or.inr (Or.inr ⟨rfl, rfl⟩)

/-- The order of the calls of a chunked upload. -/
theorem chunkedRun_ordered (env : Env) (sw : Seaweed) (fp : FilePart) (tr : List Event)
    (n : Nat) (o : UploadOut) (h : ChunkedRun env sw fp tr n o) :
    (∀ pre ev post, o.trace.drop tr.length = pre ++ ev :: post → isAssign ev = true →
      ∃ cs, Rounds env sw fp.Collection fp.Ttl (env.pathBase fp.FileName) 0 fp.Reader pre cs) ∧
    (∀ pre ev post, o.trace.drop tr.length = pre ++ ev :: post → isManifestUpload ev = true →
      ∃ rounds cs buf, pre = rounds ++ [Event.marshal (manifestOf env fp cs) (.ok buf)] ∧
        Rounds env sw fp.Collection fp.Ttl (env.pathBase fp.FileName) 0 fp.Reader rounds cs ∧
        cs.length = n) ∧
    ((∃ ev ∈ o.trace.drop tr.length, chunkCallFailed env ev = true) →
      ∀ ev ∈ o.trace.drop tr.length, isManifestUpload ev = false) := by
  obtain ⟨evs, cs, tail, htr, hR, hcases⟩ := chunkedRun_tail env sw fp tr n o h
  have hdrop : o.trace.drop tr.length = evs ++ tail := by rw [htr, List.drop_left]
  rw [hdrop]
  have hev_manifest : ∀ ev ∈ evs, isManifestUpload ev = false ∧ chunkCallFailed env ev = false := by
    intro ev hev
    rcases rounds_events env sw _ _ _ cs 0 fp.Reader evs hR ev hev with
      ⟨r, ret, rfl, hd⟩ | ⟨ret, j, m, ur, rfl⟩
    · simp [assignCall, isManifestUpload, chunkCallFailed, hd]
    · simp [chunkUploadCall, isManifestUpload, chunkCallFailed, MkUrl]
  refine ⟨?_, ?_, ?_⟩
  · intro pre ev post hsplit hev
    rcases split_in_append evs tail pre post ev hsplit with ⟨post1, h1⟩ | ⟨pre1, h1, h2⟩
    · exact rounds_prefix_assign env sw _ _ _ cs 0 fp.Reader evs hR pre ev post1 h1 hev
    · have hpre1 : pre1 = [] := by
        rcases hcases with ⟨-, r, rfl, -⟩ | ⟨-, r, ret, m, e, rfl, -⟩ | ⟨-, e, rfl⟩ |
          ⟨-, buf, e, rfl⟩ | ⟨-, buf, ur, rfl⟩
        · rcases split_two _ _ _ _ _ h2 with ⟨rfl, -⟩ | ⟨-, rfl⟩
          · rfl
          · simp [isAssign] at hev
        · rcases split_three _ _ _ _ _ _ h2 with ⟨rfl, -⟩ | ⟨-, rfl⟩ | ⟨-, rfl⟩
          · rfl
          · simp [chunkUploadCall, isAssign] at hev
          · simp [isAssign] at hev
        · rcases split_two _ _ _ _ _ h2 with ⟨-, rfl⟩ | ⟨-, rfl⟩ <;> simp [isAssign] at hev
        · rcases split_three _ _ _ _ _ _ h2 with ⟨-, rfl⟩ | ⟨-, rfl⟩ | ⟨-, rfl⟩ <;>
            simp [isAssign, manifestUploadCall] at hev
        · rcases split_two _ _ _ _ _ h2 with ⟨-, rfl⟩ | ⟨-, rfl⟩ <;>
            simp [isAssign, manifestUploadCall] at hev
      subst hpre1
      rw [List.append_nil] at h1
      subst h1
      exact ⟨cs, hR⟩
  · intro pre ev post hsplit hev
    rcases split_in_append evs tail pre post ev hsplit with ⟨post1, h1⟩ | ⟨pre1, h1, h2⟩
    · exfalso
      have := (hev_manifest ev (by rw [h1]; simp)).1
      rw [hev] at this
      exact Bool.noConfusion this
    · rcases hcases with ⟨-, r, rfl, -⟩ | ⟨-, r, ret, m, e, rfl, -⟩ | ⟨-, e, rfl⟩ |
        ⟨hlen, buf, e, rfl⟩ | ⟨hlen, buf, ur, rfl⟩
      · rcases split_two _ _ _ _ _ h2 with ⟨-, rfl⟩ | ⟨-, rfl⟩ <;>
          simp [isManifestUpload, assignCall] at hev
      · rcases split_three _ _ _ _ _ _ h2 with ⟨-, rfl⟩ | ⟨-, rfl⟩ | ⟨-, rfl⟩ <;>
          simp [isManifestUpload, assignCall, chunkUploadCall, MkUrl] at hev
      · rcases split_two _ _ _ _ _ h2 with ⟨-, rfl⟩ | ⟨-, rfl⟩ <;>
          simp [isManifestUpload] at hev
      · rcases split_three _ _ _ _ _ _ h2 with ⟨-, rfl⟩ | ⟨rfl, -⟩ | ⟨-, rfl⟩
        · simp [isManifestUpload] at hev
        · exact ⟨evs, cs, buf, h1, hR, hlen⟩
        · simp [isManifestUpload] at hev
      · rcases split_two _ _ _ _ _ h2 with ⟨-, rfl⟩ | ⟨rfl, -⟩
        · simp [isManifestUpload] at hev
        · exact ⟨evs, cs, buf, h1, hR, hlen⟩
  · rintro ⟨ev, hev, hfailed⟩ ev2 hev2
    have hnotail : ∀ x ∈ tail, chunkCallFailed env x = true → ∀ y ∈ tail, isManifestUpload y = false := by
      rcases hcases with ⟨-, r, rfl, -⟩ | ⟨-, r, ret, m, e, rfl, -⟩ | ⟨-, e, rfl⟩ |
        ⟨hlen, buf, e, rfl⟩ | ⟨hlen, buf, ur, rfl⟩
      · intro x _ _ y hy
        simp only [List.mem_cons, List.mem_singleton, List.not_mem_nil, or_false] at hy
        rcases hy with rfl | rfl <;> simp [isManifestUpload, assignCall]
      · intro x _ _ y hy
        simp only [List.mem_cons, List.mem_singleton, List.not_mem_nil, or_false] at hy
        rcases hy with rfl | rfl | rfl <;>
          simp [isManifestUpload, assignCall, chunkUploadCall, MkUrl]
      · intro x _ _ y hy
        simp only [List.mem_cons, List.mem_singleton, List.not_mem_nil, or_false] at hy
        rcases hy with rfl | rfl <;> simp [isManifestUpload]
      · intro x hx hxf
        exfalso
        simp only [List.mem_cons, List.mem_singleton, List.not_mem_nil, or_false] at hx
        rcases hx with rfl | rfl | rfl <;>
          simp [chunkCallFailed, manifestUploadCall, MkUrl] at hxf
      · intro x hx hxf
        exfalso
        simp only [List.mem_cons, List.mem_singleton, List.not_mem_nil, or_false] at hx
        rcases hx with rfl | rfl <;>
          simp [chunkCallFailed, manifestUploadCall, MkUrl] at hxf
    rcases List.mem_append.1 hev with hev | hev
    · have := (hev_manifest ev hev).2
      rw [hfailed] at this
      exact Bool.noConfusion this
    · rcases List.mem_append.1 hev2 with hev2 | hev2
      · exact (hev_manifest ev2 hev2).1
      · exact hnotail ev hev hfailed ev2 hev2

/-! ## Lemmas on the fids assigned -/

theorem assignedFids_append (env : Env) (xs ys : List Event) :
    assignedFids env (xs ++ ys) = assignedFids env xs ++ assignedFids env ys := by
  induction xs with
  | nil => rfl
  | cons x xs ih =>
    cases x with
    | post h p v r =>
      cases hd : decodeAssign env r <;> simp [assignedFids, hd, ih]
    | _ => simp [assignedFids, ih]

theorem rounds_assignedFids (env : Env) (sw : Seaweed) (coll ttl b : String) :
    ∀ (cs : List ChunkInfo) (i avail : Nat) (evs : List Event),
    Rounds env sw coll ttl b i avail evs cs →
    assignedFids env evs = cs.map fun c => c.Fid := by
  intro cs
  induction cs with
  | nil =>
    intro i avail evs h
    rw [rounds_nil_chunks env sw coll ttl b i avail evs h]
    rfl
  | cons c cs ih =>
    intro i avail evs h
    obtain ⟨r, ret, ur, rest, hd, rfl, rfl, hrest⟩ := rounds_cons_chunks _ _ _ _ _ _ _ _ _ _ h
    have := ih _ _ _ hrest
    simp [assignCall, chunkUploadCall, assignedFids, hd, this]

theorem tsArgs_no_cm (fp : FilePart) : ("cm", "true") ∉ tsArgs fp := by
  unfold tsArgs
  split <;> simp

/-! ## Lemmas on strings and decimal renderings -/

theorem str_append_ne_empty_left (s t : String) (h : s ≠ "") : s ++ t ≠ "" := by
  intro h2
  apply h
  have h3 := congrArg String.data h2
  simp only [String.data_append] at h3
  have h4 : s.data = [] := (List.append_eq_nil.1 h3).1
  exact String.ext h4

theorem str_append_ne_empty_right (s t : String) (h : t ≠ "") : s ++ t ≠ "" := by
  intro h2
  apply h
  have h3 := congrArg String.data h2
  simp only [String.data_append] at h3
  have h4 : t.data = [] := (List.append_eq_nil.1 h3).2
  exact String.ext h4

theorem batchFid_ne_empty (F : String) (i : Nat) (h : F ≠ "") : batchFid F i ≠ "" := by
  unfold batchFid
  split
  · rw [String.append_assoc]
    exact str_append_ne_empty_left _ _ h
  · exact h

/-! ## Lemmas on the batch loop -/

theorem uploadResolved_fp (env : Env) (sw : Seaweed) (fp : FilePart) (tr : List Event)
    (o : UploadOut) (ho : uploadResolved env sw fp tr = some o) :
    ∃ reader, o.fp = { fp with Reader := reader } := by
  by_cases hchunk : 0 < sw.ChunkSize ∧ sw.ChunkSize < fp.FileSize
  · obtain ⟨-, evs, cs, reader, -, hfp, -⟩ :=
      uploadResolved_chunked_some env sw fp tr o hchunk.1 hchunk.2 ho
    exact ⟨reader, hfp⟩
  · obtain ⟨r, hr⟩ := uploadResolved_plain env sw fp tr hchunk
    rw [hr] at ho
    simp only [Option.some.injEq] at ho
    subst ho
    exact ⟨0, rfl⟩

theorem UploadFilePart_fp (env : Env) (sw : Seaweed) (fp : FilePart) (tr : List Event)
    (o : UploadOut) (ho : UploadFilePart env sw fp tr = some o) :
    ∃ reader server fid, o.fp = { fp with Reader := reader, Server := server, Fid := fid } ∧
      (fp.Fid ≠ "" → fid = fp.Fid) := by
  obtain ⟨server, fid, ext, h1, -, h3, -, -⟩ := resolveTarget_fields env sw fp tr
  unfold UploadFilePart at ho
  generalize resolveTarget env sw fp tr = res at ho h1
  obtain ⟨err, fp1, tr1⟩ := res
  simp only at h1
  subst h1
  cases err with
  | some e =>
    simp only [Option.some.injEq] at ho
    subst ho
    exact ⟨fp.Reader, server, fid, rfl, h3⟩
  | none =>
    simp only at ho
    obtain ⟨reader, hfp⟩ := uploadResolved_fp env sw _ tr1 o ho
    exact ⟨reader, server, fid, by rw [hfp], h3⟩

theorem UploadFilePart_returns (env : Env) (sw : Seaweed) (fp : FilePart) (tr : List Event)
    (hfit : countFits env sw fp) : ∃ o, UploadFilePart env sw fp tr = some o := by
  obtain ⟨server, fid, ext, h1, -, -, -, -⟩ := resolveTarget_fields env sw fp tr
  unfold UploadFilePart
  generalize resolveTarget env sw fp tr = res at h1
  obtain ⟨err, fp1, tr1⟩ := res
  simp only at h1
  subst h1
  cases err with
  | some e => exact ⟨_, rfl⟩
  | none =>
    simp only
    by_cases hchunk : 0 < sw.ChunkSize ∧ sw.ChunkSize < fp.FileSize
    · obtain ⟨o, ho, -⟩ := uploadResolved_chunked_count env sw
        { fp with Server := server, Fid := fid } tr1 hchunk.1 hchunk.2
        (hfit hchunk.1 hchunk.2)
      exact ⟨o, ho⟩
    · obtain ⟨r, hr⟩ := uploadResolved_plain env sw
        { fp with Server := server, Fid := fid } tr1 hchunk
      exact ⟨_, hr⟩

theorem batchLoop_spec (env : Env) (sw : Seaweed) (ret : AssignResult) (coll : String) :
    ∀ (pairs : List (FilePart × SubmitResult)) (i : Nat) (tr : List Event)
      (rs : List SubmitResult) (tr2 : List Event),
    batchLoop env sw ret coll i pairs tr = some (rs, tr2) →
    ∃ outs, BatchChain env sw ret coll i (pairs.map Prod.fst) tr outs tr2 ∧
      outs.length = pairs.length ∧
      rs = List.zipWith (fun p o => batchSlot ret p.2 o.fp o.err) pairs outs := by
  intro pairs
  induction pairs with
  | nil =>
    intro i tr rs tr2 h
    simp only [batchLoop, Option.some.injEq, Prod.mk.injEq] at h
    obtain ⟨rfl, rfl⟩ := h
    exact ⟨[], by simp [BatchChain], rfl, rfl⟩
  | cons p pairs ih =>
    intro i tr rs tr2 h
    obtain ⟨file, r0⟩ := p
    simp only [batchLoop] at h
    cases hu : UploadFilePart env sw (batchFile ret coll i file) tr with
    | none => rw [hu] at h; simp at h
    | some o =>
      rw [hu] at h
      simp only at h
      cases hl : batchLoop env sw ret coll (i + 1) pairs o.trace with
      | none => rw [hl] at h; simp at h
      | some q =>
        obtain ⟨rs1, tr3⟩ := q
        rw [hl] at h
        simp only [Option.some.injEq, Prod.mk.injEq] at h
        obtain ⟨rfl, rfl⟩ := h
        obtain ⟨outs, hchain, hlen, hrs⟩ := ih (i + 1) o.trace rs1 tr3 hl
        exact ⟨o :: outs, ⟨hu, hchain⟩, by simp [hlen], by simp [hrs]⟩

theorem batchLoop_returns (env : Env) (sw : Seaweed) (ret : AssignResult) (coll : String) :
    ∀ (pairs : List (FilePart × SubmitResult)) (i : Nat) (tr : List Event),
    (∀ p ∈ pairs, countFits env sw p.1) →
    ∃ q, batchLoop env sw ret coll i pairs tr = some q := by
  intro pairs
  induction pairs with
  | nil => intro i tr _; exact ⟨_, rfl⟩
  | cons p pairs ih =>
    intro i tr hfit
    obtain ⟨file, r0⟩ := p
    have hf : countFits env sw (batchFile ret coll i file) := hfit (file, r0) (by simp)
    obtain ⟨o, ho⟩ := UploadFilePart_returns env sw (batchFile ret coll i file) tr hf
    obtain ⟨q, hq⟩ := ih (i + 1) o.trace (fun p hp => hfit p (by simp [hp]))
    obtain ⟨rs, tr3⟩ := q
    refine ⟨(batchSlot ret r0 o.fp o.err :: rs, tr3), ?_⟩
    simp only [batchLoop, ho, hq]

theorem batchChain_index (env : Env) (sw : Seaweed) (ret : AssignResult) (coll : String) :
    ∀ (files : List FilePart) (i : Nat) (tr : List Event) (outs : List UploadOut)
      (tr2 : List Event),
    BatchChain env sw ret coll i files tr outs tr2 →
    ∀ k f o, files[k]? = some f → outs[k]? = some o →
      ∃ trk, UploadFilePart env sw (batchFile ret coll (i + k) f) trk = some o := by
  intro files
  induction files with
  | nil => intro i tr outs tr2 _ k f o hf; simp at hf
  | cons f0 files ih =>
    intro i tr outs tr2 h k f o hf ho
    cases outs with
    | nil => simp at ho
    | cons o0 outs =>
      simp only [BatchChain] at h
      cases k with
      | zero =>
        simp only [List.getElem?_cons_zero, Option.some.injEq] at hf ho
        subst hf ho
        exact ⟨tr, h.1⟩
      | succ k =>
        simp only [List.getElem?_cons_succ] at hf ho
        obtain ⟨trk, htrk⟩ := ih (i + 1) o0.trace outs tr2 h.2 k f o hf ho
        exact ⟨trk, by rw [← htrk]; congr 2; omega⟩

theorem batch_of_assign_ok (env : Env) (sw : Seaweed) (files : List FilePart)
    (coll ttl : String) (tr tr1 : List Event) (ret : AssignResult) (out : BatchOut)
    (hA : Assign env sw files.length coll ttl tr = (.ok ret, tr1))
    (hb : BatchUploadFileParts env sw files coll ttl tr = some out) :
    out.err = none ∧
    ∃ outs, BatchChain env sw ret coll 0 files tr1 outs out.trace ∧
      outs.length = files.length ∧
      out.results = List.zipWith (fun p o => batchSlot ret p.2 o.fp o.err)
        (files.zip (initResults env files)) outs := by
  unfold BatchUploadFileParts at hb
  rw [hA] at hb
  simp only at hb
  cases hl : batchLoop env sw ret coll 0 (files.zip (initResults env files)) tr1 with
  | none => rw [hl] at hb; simp at hb
  | some q =>
    obtain ⟨rs, tr2⟩ := q
    rw [hl] at hb
    simp only [Option.some.injEq] at hb
    subst hb
    obtain ⟨outs, hchain, hlen, hrs⟩ := batchLoop_spec env sw ret coll _ 0 tr1 rs tr2 hl
    have hmap : (files.zip (initResults env files)).map Prod.fst = files := by
      unfold initResults
      rw [List.map_fst_zip]
      simp
    rw [hmap] at hchain
    refine ⟨rfl, outs, hchain, ?_, hrs⟩
    rw [hlen]
    simp [initResults]

theorem batch_slot_index (env : Env) (files : List FilePart)
    (ret : AssignResult) (outs : List UploadOut) (k : Nat) (f : FilePart) (o : UploadOut)
    (hf : files[k]? = some f) (ho : outs[k]? = some o) :
    (List.zipWith (fun p o => batchSlot ret p.2 o.fp o.err)
        (files.zip (initResults env files)) outs)[k]?
      = some (batchSlot ret
          { FileName := f.FileName, FileBase := env.filepathBase f.FileName } o.fp o.err) := by
  have hz : (files.zip (initResults env files))[k]?
      = some (f, { FileName := f.FileName, FileBase := env.filepathBase f.FileName }) := by
    rw [List.getElem?_zip_eq_some]
    simp [initResults, hf]
  rw [List.getElem?_zipWith, hz, ho]

theorem batch_returns (env : Env) (sw : Seaweed) (files : List FilePart)
    (coll ttl : String) (tr : List Event) (hfit : ∀ f ∈ files, countFits env sw f) :
    ∃ out, BatchUploadFileParts env sw files coll ttl tr = some out := by
  unfold BatchUploadFileParts
  simp only
  generalize Assign env sw files.length coll ttl tr = a
  obtain ⟨res, tr1⟩ := a
  cases res with
  | fail e => exact ⟨_, rfl⟩
  | ok ret =>
    simp only
    obtain ⟨q, hq⟩ := batchLoop_returns env sw ret coll (files.zip (initResults env files)) 0
      tr1 (fun p hp => hfit p.1 (List.of_mem_zip hp).1)
    obtain ⟨rs, tr2⟩ := q
    rw [hq]
    exact ⟨_, rfl⟩

/-- The FilePart after the upload of the file at index `k` of a batch. -/
theorem batch_file_after (env : Env) (sw : Seaweed) (ret : AssignResult) (coll : String)
    (k : Nat) (f : FilePart) (trk : List Event) (o : UploadOut) (hF : ret.Fid ≠ "")
    (ho : UploadFilePart env sw (batchFile ret coll k f) trk = some o) :
    o.fp.Fid = batchFid ret.Fid k ∧ o.fp.Ext = f.Ext ∧ o.fp.FileSize = f.FileSize ∧
    o.fp.MimeType = f.MimeType := by
  obtain ⟨reader, server, fid, hfp, hfid⟩ := UploadFilePart_fp env sw _ trk o ho
  have h2 : fid = batchFid ret.Fid k := hfid (batchFid_ne_empty ret.Fid k hF)
  rw [hfp, h2]
  exact ⟨rfl, rfl, rfl, rfl⟩

/-! ## Lemmas on the trace of an upload -/

theorem uploadResolved_trace (env : Env) (sw : Seaweed) (fp : FilePart) (tr : List Event)
    (o : UploadOut) (ho : uploadResolved env sw fp tr = some o) :
    ∃ ext, o.trace = tr ++ ext := by
  by_cases hchunk : 0 < sw.ChunkSize ∧ sw.ChunkSize < fp.FileSize
  · obtain ⟨-, hrun⟩ := uploadResolved_chunked_some env sw fp tr o hchunk.1 hchunk.2 ho
    obtain ⟨evs, cs, tail, htr, -, -⟩ := chunkedRun_tail env sw fp tr _ o hrun
    exact ⟨_, htr⟩
  · obtain ⟨r, hr⟩ := uploadResolved_plain env sw fp tr hchunk
    rw [hr] at ho
    simp only [Option.some.injEq] at ho
    subst ho
    exact ⟨_, rfl⟩

theorem UploadFilePart_trace (env : Env) (sw : Seaweed) (fp : FilePart) (tr : List Event)
    (o : UploadOut) (ho : UploadFilePart env sw fp tr = some o) :
    ∃ ext, o.trace = tr ++ ext := by
  obtain ⟨server, fid, ext, -, h2, -, -, -⟩ := resolveTarget_fields env sw fp tr
  unfold UploadFilePart at ho
  generalize resolveTarget env sw fp tr = res at ho h2
  obtain ⟨err, fp1, tr1⟩ := res
  simp only at h2
  subst h2
  cases err with
  | some e =>
    simp only [Option.some.injEq] at ho
    subst ho
    exact ⟨ext, rfl⟩
  | none =>
    simp only at ho
    obtain ⟨ext2, h⟩ := uploadResolved_trace env sw fp1 _ o ho
    exact ⟨ext ++ ext2, by rw [h, List.append_assoc]⟩

theorem deleteFile_calls (env : Env) (fp : FilePart) (tr : List Event) :
    DeleteCalls fp tr (DeleteFile env fp.Fid fp.Collection tr).2 := by
  unfold DeleteFile DeleteCalls
  simp only
  generalize env.LookupFileId tr fp.Fid fp.Collection false = r
  cases r with
  | fail e => exact Or.inl ⟨e, rfl⟩
  | ok url =>
    right
    simp only
    generalize env.Delete (tr ++ [Event.lookup fp.Fid fp.Collection false (.ok url)]) url = d
    refine ⟨url, d, ?_⟩
    cases d <;> simp


/-! ## The claims -/

/-- C1. For every declared file size `S` and chunk size `C` with `0 < C < S`: if the reader
yields exactly `S` bytes, the fid and server of the file are resolved, and every chunk
assignment and chunk upload succeeds with the upload reporting as its size the number of
bytes its `C`-limited read supplied, then whenever `UploadFilePart` returns it has handed
exactly one manifest to `uploadManifest`, and the byte ranges `[Offset, Offset + Size)` of
its chunks, taken in order, exactly cover `[0, S)` with no gaps and no overlaps, the sizes
adding up to `S`; and `UploadFilePart` does return, having handed over such a manifest,
whenever the slice of the chunks can be allocated. -/
theorem chunked_manifest_covers_file (env : Env) (sw : Seaweed) (fp fp1 : FilePart)
    (tr tr1 : List Event) (hC : 0 < sw.ChunkSize) (hS : sw.ChunkSize < fp.FileSize)
    (hmax : fp.FileSize ≤ int64Max)
    (hreader : (fp.Reader : Int) = fp.FileSize)
    (hres : resolveTarget env sw fp tr = (none, fp1, tr1))
    (hhon : HonestChunkCalls env sw fp tr tr1) :
    EveryManifestCovers env sw fp tr tr1 ∧
    (makeSucceeds env (chunkCount sw fp) = true →
      HandsCoveringManifest env sw fp tr tr1) := by
  have hall : EveryManifestCovers env sw fp tr tr1 := by
    intro o ho
    obtain ⟨evs, cs, tail, htr, hR, -, hm, -, -, ht⟩ :=
      honest_chunked_run env sw fp fp1 tr tr1 o hC hS hmax hreader hres hhon ho
    refine ⟨manifestOf env fp1 cs, ?_, ht, ?_, ?_⟩
    · rw [htr, List.drop_left, marshalled_append,
        rounds_marshalled env sw _ _ _ cs 0 fp.Reader evs hR, hm]
      rfl
    · simpa using tiles_sum _ _ _ ht
    · exact tiles_cover _ _ _ ht
  refine ⟨hall, ?_⟩
  intro hmk
  obtain ⟨o, ho, -⟩ := chunked_upload_returns env sw fp fp1 tr tr1 hC hS hres hmk
  obtain ⟨cm, h1, h2⟩ := hall o ho
  exact ⟨o, cm, ho, h1, h2⟩

/-- C1, example: a file of four bytes in chunks of two bytes on a cluster where every call
succeeds; the manifest handed over has the chunks `[0, 2)`, `[2, 4)` and `[4, 4)`. -/
theorem chunked_manifest_covers_file_witness :
    (0 < swTwo.ChunkSize ∧ swTwo.ChunkSize < fourBytes.FileSize ∧
      fourBytes.FileSize ≤ int64Max ∧
      (fourBytes.Reader : Int) = fourBytes.FileSize ∧
      resolveTarget okEnv swTwo fourBytes [] = (none, fourBytes, []) ∧
      HonestChunkCalls okEnv swTwo fourBytes [] [] ∧
      makeSucceeds okEnv (chunkCount swTwo fourBytes) = true) ∧
    (UploadFilePart okEnv swTwo fourBytes []).map
        (fun o => (marshalled o.trace).map
          fun cm => cm.Chunks.map fun c => (c.Offset, c.Size))
      = some [[(0, 2), (2, 2), (4, 0)]] ∧
    HandsCoveringManifest okEnv swTwo fourBytes [] [] :=
  ⟨⟨by decide, by decide, by decide, by decide, by decide,
      by unfold HonestChunkCalls; decide, by decide⟩, by decide,
    (chunked_manifest_covers_file okEnv swTwo fourBytes fourBytes [] [] (by decide) (by decide)
      (by decide) (by decide) (by decide) (by unfold HonestChunkCalls; decide)).2 (by decide)⟩


/-- C2. For every chunked upload (of `n = S / C + 1` chunks, after the fid and server of the
file are resolved): the upload returns whenever the slice of the chunks can be allocated;
and whenever it returns and one of its calls failed (the assignment or the upload of a
chunk, or the serialization or the upload of the manifest), it returns an error `e` and the
calls it made are the successful rounds of the chunks `0 .. k-1` for some `k ≤ n`, then the
failing step (for `k < n` the round of chunk `k`, whose assignment or upload fails with
`e`; for `k = n` the manifest write, which fails with `e`), then one call of
`DeleteChunks`, and nothing after it. `DeleteChunks` is called exactly once, with the
manifest whose chunks are those recorded for the rounds `0 .. k-1`, so that its chunk fids
are exactly the fids written by the successful chunk uploads, in order; and the error
returned is `e`, the error of the failing step. Every upload that returns an error is such
a rollback, and an upload that returns no error made no call that failed and no call of
`DeleteChunks`. -/
theorem rollback_after_failure (env : Env) (sw : Seaweed) (fp fp1 : FilePart)
    (tr tr1 : List Event)
    (hC : 0 < sw.ChunkSize) (hS : sw.ChunkSize < fp.FileSize) (hmax : fp.FileSize ≤ int64Max)
    (hres : resolveTarget env sw fp tr = (none, fp1, tr1)) :
    (makeSucceeds env (chunkCount sw fp) = true →
      ∃ o, UploadFilePart env sw fp tr = some o) ∧
    FailureRollsBack env sw fp fp1 tr tr1 := by
  constructor
  · intro hmk
    obtain ⟨o, ho, -⟩ := chunked_upload_returns env sw fp fp1 tr tr1 hC hS hres hmk
    exact ⟨o, ho⟩
  · intro o ho
    rcases chunkedRun_rollback env sw fp fp1 tr tr1 o hC hS hmax hres ho with
      ⟨e, hrb⟩ | ⟨hnone, hnf, hnd⟩
    · refine ⟨fun _ => ⟨e, hrb⟩, ?_, ?_⟩
      · intro e2 he2
        have h1 := hrb.1
        rw [he2] at h1
        obtain rfl := Option.some.inj h1
        exact hrb
      · intro hn
        have h1 := hrb.1
        rw [hn] at h1
        exact Option.noConfusion h1
    · refine ⟨?_, ?_, fun _ => ⟨hnf, hnd⟩⟩
      · rintro ⟨ev, hev, hf⟩
        rw [hnf ev hev] at hf
        exact Bool.noConfusion hf
      · intro e he
        rw [hnone] at he
        exact Option.noConfusion he

/-- C2, examples: five bytes in chunks of two bytes. On a cluster where the upload of the
second chunk fails, the one chunk written before it is handed to `DeleteChunks` and the
error of the upload is returned; on a cluster where the upload of the manifest fails, the
three chunks written are handed to `DeleteChunks` and the error of that upload is
returned. -/
theorem rollback_after_failure_witness :
    ((0 < swTwo.ChunkSize ∧ swTwo.ChunkSize < fiveBytes.FileSize ∧
        fiveBytes.FileSize ≤ int64Max ∧
        resolveTarget (uploadFailsAt 1) swTwo fiveBytes [] = (none, fiveBytes, []) ∧
        UploadFilePart (uploadFailsAt 1) swTwo fiveBytes []
          = some (outcomeOf (UploadFilePart (uploadFailsAt 1) swTwo fiveBytes []) fiveBytes) ∧
        (∃ ev ∈ (outcomeOf (UploadFilePart (uploadFailsAt 1) swTwo fiveBytes [])
            fiveBytes).trace.drop ([] : List Event).length,
          callFailed (uploadFailsAt 1) ev = true)) ∧
      (UploadFilePart (uploadFailsAt 1) swTwo fiveBytes []).map
          (fun o => (o.err, o.trace.filter isDeleteChunks, uploadedFids o.trace))
        = some (some "disk full",
            [Event.deleteChunks ⟨"b.txt", 5, "text/plain", [⟨0, 2, "3,0"⟩]⟩ ""], ["3,0"]) ∧
      ∃ e, RolledBack (uploadFailsAt 1) swTwo fiveBytes fiveBytes []
        (outcomeOf (UploadFilePart (uploadFailsAt 1) swTwo fiveBytes []) fiveBytes) e) ∧
    ((0 < swTwo.ChunkSize ∧ swTwo.ChunkSize < fiveBytes.FileSize ∧
        fiveBytes.FileSize ≤ int64Max ∧
        resolveTarget (uploadFailsAt 3) swTwo fiveBytes [] = (none, fiveBytes, []) ∧
        UploadFilePart (uploadFailsAt 3) swTwo fiveBytes []
          = some (outcomeOf (UploadFilePart (uploadFailsAt 3) swTwo fiveBytes []) fiveBytes) ∧
        (outcomeOf (UploadFilePart (uploadFailsAt 3) swTwo fiveBytes []) fiveBytes).err
          = some "disk full") ∧
      (UploadFilePart (uploadFailsAt 3) swTwo fiveBytes []).map
          (fun o => (o.trace.filter isDeleteChunks).map fun ev =>
            match ev with
            | .deleteChunks cm _ => cm.Chunks.map fun c => c.Fid
            | _ => [])
        = some [["3,0", "3,2", "3,4"]] ∧
      RolledBack (uploadFailsAt 3) swTwo fiveBytes fiveBytes []
        (outcomeOf (UploadFilePart (uploadFailsAt 3) swTwo fiveBytes []) fiveBytes)
        "disk full") :=
  ⟨⟨⟨by decide, by decide, by decide, by decide, by decide, by decide⟩, by decide,
      ((rollback_after_failure (uploadFailsAt 1) swTwo fiveBytes fiveBytes [] []
        (by decide) (by decide) (by decide) (by decide)).2 _ (by decide)).1 (by decide)⟩,
    ⟨by decide, by decide, by decide, by decide, by decide, by decide⟩, by decide,
      ((rollback_after_failure (uploadFailsAt 3) swTwo fiveBytes fiveBytes [] []
        (by decide) (by decide) (by decide) (by decide)).2 _ (by decide)).2.1 _ (by decide)⟩


/-- C3. In the calls made by one chunked upload (after the fid and server of the file are
resolved): whatever precedes an assignment request is a sequence of complete successful
rounds, so the upload of chunk `i` has completed when the assignment for chunk `i + 1` is
requested; the manifest upload (the upload carrying `cm=true`) occurs only after every one
of the computed number of chunk uploads has succeeded; and in every run where some chunk
assignment or upload fails, no manifest upload is issued. -/
theorem chunks_in_order_manifest_last (env : Env) (sw : Seaweed) (fp fp1 : FilePart)
    (tr tr1 : List Event) (o : UploadOut)
    (hC : 0 < sw.ChunkSize) (hS : sw.ChunkSize < fp.FileSize) (hmax : fp.FileSize ≤ int64Max)
    (hres : resolveTarget env sw fp tr = (none, fp1, tr1))
    (ho : UploadFilePart env sw fp tr = some o) :
    OrderedRun env sw fp fp1 tr1 o := by
  obtain ⟨hR1, hN1, hS1, -, -, -, -, hColl1, hTtl1⟩ :=
    resolved_fields env sw fp fp1 tr tr1 none hres
  rw [UploadFilePart_of_resolved env sw fp fp1 tr tr1 hres] at ho
  obtain ⟨hcc1, hrun⟩ :=
    uploadResolved_chunked env sw fp1 tr1 o hC (by rw [hS1]; exact hS)
      (by rw [hS1]; exact hmax) ho
  obtain ⟨h1, h2, h3⟩ := chunkedRun_ordered env sw fp1 tr1 _ o hrun
  rw [hR1, hN1, hColl1, hTtl1] at h1 h2
  rw [hS1] at h2
  have hcc : chunkCount sw fp = fp.FileSize / sw.ChunkSize + 1 := by
    rw [← chunkCount_resolved env sw fp fp1 tr tr1 none hres, hcc1, hS1]
  have hq0 : 0 ≤ fp.FileSize / sw.ChunkSize := Int.ediv_nonneg (by omega) (by omega)
  refine ⟨h1, ?_, h3⟩
  intro pre ev post hsplit hev
  obtain ⟨rounds, cs, buf, hpre, hR, hlen⟩ := h2 pre ev post hsplit hev
  refine ⟨rounds, cs, buf, hpre, hR, ?_⟩
  rw [hcc, hlen]
  omega

/-- C3, example: five bytes in chunks of two bytes on a cluster where every call
succeeds. -/
theorem chunks_in_order_manifest_last_witness :
    (0 < swTwo.ChunkSize ∧ swTwo.ChunkSize < fiveBytes.FileSize ∧
      fiveBytes.FileSize ≤ int64Max ∧
      resolveTarget okEnv swTwo fiveBytes [] = (none, fiveBytes, []) ∧
      UploadFilePart okEnv swTwo fiveBytes []
        = some (outcomeOf (UploadFilePart okEnv swTwo fiveBytes []) fiveBytes)) ∧
    OrderedRun okEnv swTwo fiveBytes fiveBytes []
      (outcomeOf (UploadFilePart okEnv swTwo fiveBytes []) fiveBytes) :=
  ⟨⟨by decide, by decide, by decide, by decide, by decide⟩,
    chunks_in_order_manifest_last okEnv swTwo fiveBytes fiveBytes [] [] _
      (by decide) (by decide) (by decide) (by decide) (by decide)⟩


/-- C5 (as amended). For every FilePart (of a size within `int64`, once its fid and server
are resolved) and every configured chunk size: unless `ChunkSize > 0` and
`FileSize > ChunkSize` (so also for `FileSize = ChunkSize`), `UploadFilePart` returns after
exactly one plain upload to the fid of the file, with no chunk assignment, no manifest
write and no `cm` flag; if `ChunkSize > 0` and `FileSize > ChunkSize` and the slice of the
chunks can be allocated, it returns after taking the chunked path, per-chunk assignments
followed by the manifest write, starting with the assignment for the first chunk; and if
`ChunkSize > 0` and `FileSize > ChunkSize` but the slice of the chunks cannot be allocated,
it does not return. -/
theorem chunking_decision (env : Env) (sw : Seaweed) (fp fp1 : FilePart)
    (tr tr1 : List Event) (hmax : fp.FileSize ≤ int64Max)
    (hres : resolveTarget env sw fp tr = (none, fp1, tr1)) :
    ChunkingDecision env sw fp fp1 tr tr1 := by
  obtain ⟨hR1, hN1, hS1, -, -, -, -, hColl1, hTtl1⟩ :=
    resolved_fields env sw fp fp1 tr tr1 none hres
  have hup := UploadFilePart_of_resolved env sw fp fp1 tr tr1 hres
  refine ⟨?_, ?_, ?_⟩
  · intro hno
    obtain ⟨r, hr⟩ := uploadResolved_plain env sw fp1 tr1 (by rw [hS1]; exact hno)
    refine ⟨_, r, by rw [hup]; exact hr, rfl, tsArgs_no_cm fp1, ?_, ?_, ?_⟩
    · simp [plainUploadCall, isAssign]
    · simp [plainUploadCall, marshalled]
    · have := tsArgs_no_cm fp1
      simp [plainUploadCall, isManifestUpload, MkUrl, this]
  · rintro ⟨hC, hS⟩ hmk
    obtain ⟨o, ho, hrun⟩ := chunked_upload_returns env sw fp fp1 tr tr1 hC hS hres hmk
    refine ⟨o, ho, hrun, ?_⟩
    have hcc := chunkCount_of_make env sw fp hC hS hmax hmk
    have hq1 : 1 ≤ fp.FileSize / sw.ChunkSize :=
      (Int.le_ediv_iff_mul_le hC).2 (by omega)
    obtain ⟨evs, cs, tail, htr, hR, hcases⟩ := chunkedRun_tail env sw fp1 tr1 _ o hrun
    rw [hColl1, hTtl1] at hR hcases
    cases cs with
    | nil =>
      have hevs := rounds_nil_chunks _ _ _ _ _ _ _ _ hR
      subst hevs
      have hlen0 : ¬ (([] : List ChunkInfo).length = (chunkCount sw fp).toNat) := by
        rw [hcc]; simp only [List.length_nil]; omega
      rcases hcases with ⟨-, r, rfl, -⟩ | ⟨-, r, ret, m, e, rfl, -⟩ | ⟨hlen, -⟩ |
        ⟨hlen, -⟩ | ⟨hlen, -⟩
      · exact ⟨r, _, by rw [htr]; rfl⟩
      · exact ⟨r, _, by rw [htr]; rfl⟩
      · exact absurd hlen hlen0
      · exact absurd hlen hlen0
      · exact absurd hlen hlen0
    | cons c cs =>
      obtain ⟨r, ret, ur, rest, -, rfl, -, -⟩ := rounds_cons_chunks _ _ _ _ _ _ _ _ _ _ hR
      exact ⟨r, _, by rw [htr]; rfl⟩
  · rintro ⟨hC, hS⟩ hmk
    exact chunked_upload_stops env sw fp fp1 tr tr1 hC hS hres hmk

/-- C5, examples: on a client with chunks of two bytes, a file of five bytes is sent in
chunks, the first call being the assignment for the first chunk, and a file of two bytes
(its size equal to the chunk size) is sent by one plain upload. -/
theorem chunking_decision_witness :
    ((fiveBytes.FileSize ≤ int64Max ∧
        resolveTarget okEnv swTwo fiveBytes [] = (none, fiveBytes, []) ∧
        (0 < swTwo.ChunkSize ∧ swTwo.ChunkSize < fiveBytes.FileSize) ∧
        makeSucceeds okEnv (chunkCount swTwo fiveBytes) = true) ∧
      (UploadFilePart okEnv swTwo fiveBytes []).map (fun o => o.trace.head?)
        = some (some (assignCall swTwo "" "" (.ok "0"))) ∧
      ∃ o, UploadFilePart okEnv swTwo fiveBytes [] = some o ∧
        ChunkedRun okEnv swTwo fiveBytes [] (chunkCount swTwo fiveBytes).toNat o ∧
        ∃ r rest, o.trace = [] ++ assignCall swTwo fiveBytes.Collection fiveBytes.Ttl r :: rest) ∧
    ((twoBytes.FileSize ≤ int64Max ∧ twoBytes.FileSize = swTwo.ChunkSize ∧
        resolveTarget okEnv swTwo twoBytes [] = (none, twoBytes, []) ∧
        ¬ (0 < swTwo.ChunkSize ∧ swTwo.ChunkSize < twoBytes.FileSize)) ∧
      ∃ o r, UploadFilePart okEnv swTwo twoBytes [] = some o ∧
        o.trace = [] ++ [plainUploadCall okEnv twoBytes r] ∧
        ("cm", "true") ∉ tsArgs twoBytes ∧
        (o.trace.drop ([] : List Event).length).filter isAssign = [] ∧
        marshalled (o.trace.drop ([] : List Event).length) = [] ∧
        (o.trace.drop ([] : List Event).length).filter isManifestUpload = []) :=
  ⟨⟨⟨by decide, by decide, by decide, by decide⟩, by decide,
      (chunking_decision okEnv swTwo fiveBytes fiveBytes [] [] (by decide) (by decide)).2.1
        (by decide) (by decide)⟩,
    ⟨by decide, by decide, by decide, by decide⟩,
      (chunking_decision okEnv swTwo twoBytes twoBytes [] [] (by decide) (by decide)).1
        (by decide)⟩

/-- C5 as stated fails: for the size `2^63 - 1` and chunks of one byte, and for the size
`2^46` and chunks of one byte on a platform whose allocator limit is `2^48` bytes, the chunk
size is positive and the file size exceeds it, but the chunked path is not taken: no
assignment is made and no manifest is written, `UploadFilePart` does not return. -/
theorem chunking_decision_counterexample :
    ((0 < swOne.ChunkSize ∧ swOne.ChunkSize < hugeFile.FileSize) ∧
      hugeFile.FileSize ≤ int64Max ∧
      resolveTarget okEnv swOne hugeFile [] = (none, hugeFile, []) ∧
      UploadFilePart okEnv swOne hugeFile [] = none) ∧
    ((0 < swOne.ChunkSize ∧ swOne.ChunkSize < largeFile.FileSize) ∧
      largeFile.FileSize ≤ int64Max ∧
      resolveTarget okEnv swOne largeFile [] = (none, largeFile, []) ∧
      UploadFilePart okEnv swOne largeFile [] = none) := by
  decide


/-- C6 (as amended). For every upload that completes without error, plain or chunked: the
returned SubmitResult has an empty `Error`; its `Fid` is the own fid of the file (the one it
came with, or the one returned by the initial assignment) followed by the extension; its
`Size` is the declared `FileSize`; its `FileUrl` is the server of the file, a slash, the own
fid and the extension; and the `Fid` is the fid of a chunk of the manifest written exactly
when the master assigned that value, the own fid followed by the extension, to a chunk of
this upload (so it is the fid of no chunk when the master assigned it to none). -/
theorem success_result_names_file (env : Env) (sw : Seaweed) (fp fp1 : FilePart)
    (tr tr1 : List Event) (o : UploadOut)
    (hres : resolveTarget env sw fp tr = (none, fp1, tr1))
    (ho : UploadFilePart env sw fp tr = some o) (herr : o.err = none) :
    SuccessResult env sw fp fp1 tr tr1 o := by
  obtain ⟨hR1, hN1, hS1, -, hM1, hE1, -, hColl1, hTtl1⟩ :=
    resolved_fields env sw fp fp1 tr tr1 none hres
  have hown := resolveTarget_ok env sw fp fp1 tr tr1 hres
  rw [UploadFilePart_of_resolved env sw fp fp1 tr tr1 hres] at ho
  by_cases hchunk : 0 < sw.ChunkSize ∧ sw.ChunkSize < fp1.FileSize
  · obtain ⟨-, hrun⟩ := uploadResolved_chunked_some env sw fp1 tr1 o hchunk.1 hchunk.2 ho
    obtain ⟨evs, cs, reader, hR, -, hcases⟩ := hrun
    rcases hcases with ⟨e, failEvs, -, -, -, herr2, -⟩ |
      ⟨e, failEvs, -, -, -, herr2, -⟩ | ⟨buf, ur, hlen, htr, -, hret⟩
    · rw [herr] at herr2; exact Option.noConfusion herr2
    · rw [herr] at herr2; exact Option.noConfusion herr2
    · refine ⟨_, hret, rfl, by simp [submitResultOf, hE1], by simp [submitResultOf, hS1],
        by simp [submitResultOf, hE1], hown, ?_⟩
      have hdrop : o.trace.drop tr1.length = evs ++ [Event.marshal (manifestOf env fp1 cs)
          (.ok buf), manifestUploadCall fp1 (manifestOf env fp1 cs) buf (.ok ur)] := by
        rw [htr, List.append_assoc, List.drop_left]
      have hfid : (submitResultOf fp1 none).Fid = fp1.Fid ++ fp.Ext := by
        simp [submitResultOf, hE1]
      rw [hdrop, marshalled_append, rounds_marshalled env sw _ _ _ cs 0 fp1.Reader evs hR,
        assignedFids_append, rounds_assignedFids env sw _ _ _ cs 0 fp1.Reader evs hR, hfid]
      simp only [marshalled, manifestUploadCall, assignedFids, List.nil_append,
        List.append_nil, List.mem_singleton, List.mem_map, manifestOf]
      constructor
      · rintro ⟨cm, rfl, c, hc, heq⟩
        exact ⟨c, hc, heq.symm⟩
      · rintro ⟨c, hc, heq⟩
        exact ⟨_, rfl, c, hc, heq.symm⟩
  · obtain ⟨r, hr⟩ := uploadResolved_plain env sw fp1 tr1 hchunk
    rw [hr] at ho
    simp only [Option.some.injEq] at ho
    subst ho
    cases r with
    | fail e => simp at herr
    | ok ur =>
      refine ⟨_, rfl, rfl, by simp [submitResultOf, hE1], by simp [submitResultOf, hS1],
        by simp [submitResultOf, hE1], hown, ?_⟩
      simp [plainUploadCall, marshalled, assignedFids]

/-- C6, example: five bytes in chunks of two bytes on a cluster where every call succeeds;
the result names the fid `7,bb` of the file, followed by the extension, and the chunks have
the fids `3,0`, `3,2` and `3,4`. -/
theorem success_result_names_file_witness :
    (resolveTarget okEnv swTwo fiveBytes [] = (none, fiveBytes, []) ∧
      UploadFilePart okEnv swTwo fiveBytes []
        = some (outcomeOf (UploadFilePart okEnv swTwo fiveBytes []) fiveBytes) ∧
      (outcomeOf (UploadFilePart okEnv swTwo fiveBytes []) fiveBytes).err = none) ∧
    (UploadFilePart okEnv swTwo fiveBytes []).map
        (fun o => (o.ret.map (fun r => (r.Error, r.Fid, r.Size, r.FileUrl)),
          (marshalled o.trace).map fun cm => cm.Chunks.map fun c => c.Fid))
      = some (some ("", "7,bb.txt", 5, "pub1:8080/7,bb.txt"), [["3,0", "3,2", "3,4"]]) ∧
    SuccessResult okEnv swTwo fiveBytes fiveBytes [] []
      (outcomeOf (UploadFilePart okEnv swTwo fiveBytes []) fiveBytes) :=
  ⟨⟨by decide, by decide, by decide⟩, by decide,
    success_result_names_file okEnv swTwo fiveBytes fiveBytes [] [] _
      (by decide) (by decide) (by decide)⟩

/-- C6 as stated fails: the `Fid` of the result can be the fid of a chunk. A file of five
bytes without extension that comes with the fid `3,0` is uploaded in chunks of two bytes
without error on a cluster whose master assigns `3,0` to the first chunk; and a file
without fid or extension is uploaded in chunks without error on a cluster whose master
answers every assignment with the fid `7,dd`. In both runs the `Fid` of the result is the
fid of a chunk of the manifest written. -/
theorem success_result_counterexample :
    (UploadFilePart okEnv swTwo ownFid []).map
        (fun o => (o.err, o.ret.map (fun r => r.Fid),
          (marshalled o.trace).map fun cm => cm.Chunks.map fun c => c.Fid))
      = some (none, some "3,0", [["3,0", "3,2", "3,4"]]) ∧
    (UploadFilePart sameFid swTwo plainName []).map
        (fun o => (o.err, o.ret.map (fun r => r.Fid),
          (marshalled o.trace).map fun cm => cm.Chunks.map fun c => c.Fid))
      = some (none, some "7,dd", [["7,dd", "7,dd", "7,dd"]]) := by
  decide


/-- C8 (as amended). For every list of `N` files for which the batch assignment succeeds
with a non-empty base fid: the batch upload returns whenever the slice of the chunks of
every file that is to be chunked can be allocated; and whenever it returns, an upload was
attempted for every one of the `N` files in index order whatever the outcome of the others,
the returned list has exactly `N` slots in input order, the function returns no error, the
slot of a file whose upload failed carries the text of the failure in `Error` (so a
non-empty `Error` marks a failed upload, and marks exactly the failed uploads when the text
of every failure is non-empty), and the slot of a successful file has an empty `Error` with
its `Fid` and `FileUrl` populated. -/
theorem batch_failure_isolation (env : Env) (sw : Seaweed) (files : List FilePart)
    (coll ttl : String) (tr tr1 : List Event) (ret : AssignResult)
    (hA : Assign env sw files.length coll ttl tr = (.ok ret, tr1)) (hF : ret.Fid ≠ "") :
    ((∀ f ∈ files, countFits env sw f) →
      ∃ out, BatchUploadFileParts env sw files coll ttl tr = some out) ∧
    ∀ out, BatchUploadFileParts env sw files coll ttl tr = some out →
      BatchIsolated env sw files coll ret tr1 out := by
  refine ⟨batch_returns env sw files coll ttl tr, ?_⟩
  intro out hb
  obtain ⟨herr, outs, hchain, hlen, hres⟩ :=
    batch_of_assign_ok env sw files coll ttl tr tr1 ret out hA hb
  refine ⟨herr, ?_, outs, hchain, hlen, ?_⟩
  · rw [hres]
    simp [initResults, hlen]
  · intro k f o hf ho
    obtain ⟨trk, htrk⟩ := batchChain_index env sw ret coll files 0 tr1 outs out.trace hchain
      k f o hf ho
    rw [Nat.zero_add] at htrk
    obtain ⟨h1, h2, h3, -⟩ := batch_file_after env sw ret coll k f trk o hF htrk
    refine ⟨_, by rw [hres]; exact batch_slot_index env files ret outs k f o hf ho, rfl,
      by simp [batchSlot, h3], ?_, ?_, ?_, ?_⟩
    · intro e he
      simp [batchSlot, he]
    · intro hne hnone
      apply hne
      simp [batchSlot, hnone]
    · intro htext
      constructor
      · intro hne hnone
        apply hne
        simp [batchSlot, hnone]
      · intro hsome
        cases he : o.err with
        | none => exact absurd he hsome
        | some e =>
          have := htext e he
          simpa [batchSlot, he] using this
    · intro hnone
      have hfidne : batchFid ret.Fid k ++ f.Ext ≠ "" :=
        str_append_ne_empty_left _ _ (batchFid_ne_empty ret.Fid k hF)
      refine ⟨by simp [batchSlot, hnone], by simp [batchSlot, h1, h2], ?_,
        by simp [batchSlot, h1, h2], ?_⟩
      · simpa [batchSlot, h1, h2] using hfidne
      · have : ret.PublicUrl ++ "/" ++ batchFid ret.Fid k ++ f.Ext ≠ "" :=
          str_append_ne_empty_left _ _ (str_append_ne_empty_left _ _
            (str_append_ne_empty_right _ _ (by decide)))
        simpa [batchSlot, h1, h2] using this

/-- C8, example: three files, the third of them sent in chunks of two bytes, on a cluster
where the upload of the second one fails; the third is uploaded all the same. -/
theorem batch_failure_isolation_witness :
    (Assign (uploadFailsAt 1) swTwo (threeFiles.length : Nat) "pics" "" []
        = (.ok firstAssign, afterBatchAssign) ∧
      firstAssign.Fid ≠ "" ∧ ∀ f ∈ threeFiles, countFits (uploadFailsAt 1) swTwo f) ∧
    (BatchUploadFileParts (uploadFailsAt 1) swTwo threeFiles "pics" "" []).map
        (fun out => (out.err, out.results.map fun s => (s.Error, s.Fid)))
      = some (none, [("", "3,0.txt"), ("disk full", "3,0_1.txt"), ("", "3,0_2.txt")]) ∧
    (∃ out, BatchUploadFileParts (uploadFailsAt 1) swTwo threeFiles "pics" "" [] = some out) ∧
    BatchIsolated (uploadFailsAt 1) swTwo threeFiles "pics" firstAssign afterBatchAssign
      (batchOutcomeOf (BatchUploadFileParts (uploadFailsAt 1) swTwo threeFiles "pics" "" [])) :=
  ⟨⟨by decide, by decide, by unfold countFits; decide⟩, by decide,
    (batch_failure_isolation (uploadFailsAt 1) swTwo threeFiles "pics" "" [] afterBatchAssign
      firstAssign (by decide)
      (by decide)).1 (by unfold countFits; decide),
    (batch_failure_isolation (uploadFailsAt 1) swTwo threeFiles "pics" "" [] afterBatchAssign
      firstAssign (by decide)
      (by decide)).2 _ (by decide)⟩

/-- C8 as stated fails. (1) On a cluster whose master answers the assignment for a chunk
with a count of zero and no error text, the upload of a file of two bytes in chunks of one
byte fails, with an error whose text is empty, and the `Error` of its slot is empty
although the upload failed. (2) On a cluster whose master answers every assignment with an
empty fid, a file without extension is uploaded without error and the `Fid` of its slot is
empty. (3) For a batch of one file of `2^46` bytes in chunks of one byte, on a platform
whose allocator limit is `2^48` bytes, the batch assignment succeeds but the batch upload
does not return, and no list of slots is returned. -/
theorem batch_isolation_counterexample :
    ((Assign silentMaster swOne (([fileB, fileA] : List FilePart).length : Nat) "pics" "" []).1
        = .ok firstAssign ∧
      (UploadFilePart silentMaster swOne (batchFile firstAssign "pics" 0 fileB)
          (Assign silentMaster swOne (([fileB, fileA] : List FilePart).length : Nat)
            "pics" "" []).2).map (fun o => o.err) = some (some "") ∧
      (BatchUploadFileParts silentMaster swOne [fileB, fileA] "pics" "" []).map
          (fun out => (out.err, out.results.map fun s => (s.FileName, s.Error)))
        = some (none, [("b.txt", ""), ("a.txt", "")])) ∧
    ((Assign emptyFid swPlain (([plainName] : List FilePart).length : Nat) "" "" []).1
        = .ok ⟨"", "vol1:8080", "pub1:8080", 1, ""⟩ ∧
      (BatchUploadFileParts emptyFid swPlain [plainName] "" "" []).map
          (fun out => (out.err, out.trace.filter (callFailed emptyFid),
            out.results.map fun s => (s.Error, s.Fid)))
        = some (none, [], [("", "")])) ∧
    ((Assign okEnv swOne (([largeNew] : List FilePart).length : Nat) "" "" []).1
        = .ok firstAssign ∧
      firstAssign.Fid ≠ "" ∧
      BatchUploadFileParts okEnv swOne [largeNew] "" "" [] = none) := by
  decide


/-- C10 (as amended). For every FilePart: when `deleteFirst` is set and the FilePart has a
fid, the calls of a delete of that fid (its lookup and, when found, the delete) are issued
before any assignment or upload call of the new upload, and for every outcome of that
delete the upload is still performed and `ReplaceFilePart` returns exactly the result and
error that `UploadFilePart` returns for the same FilePart, the error of the delete never
being returned; when `deleteFirst` is not set, or the FilePart has no fid, no delete is
issued and `ReplaceFilePart` is `UploadFilePart`. -/
theorem replace_is_delete_then_upload (env : Env) (sw : Seaweed) (fp : FilePart)
    (deleteFirst : Bool) (tr : List Event) :
    ReplaceIsDeleteThenUpload env sw fp deleteFirst tr := by
  have heq : ReplaceFilePart env sw fp deleteFirst tr
      = UploadFilePart env sw fp (traceAfterDelete env fp deleteFirst tr) := by
    unfold ReplaceFilePart traceAfterDelete
    split <;> rfl
  refine ⟨heq, ?_, ?_, ?_⟩
  · intro o ho
    rw [heq] at ho
    exact UploadFilePart_trace env sw fp _ o ho
  · intro hd hf
    unfold traceAfterDelete
    rw [if_pos ⟨hd, hf⟩]
    exact deleteFile_calls env fp tr
  · intro h
    unfold traceAfterDelete
    rw [if_neg]
    rintro ⟨hd, hf⟩
    rcases h with h | h
    · rw [hd] at h; exact Bool.noConfusion h
    · exact hf h

/-- C10, example: a replace with `deleteFirst` on a cluster where the delete fails still
uploads the file. -/
theorem replace_is_delete_then_upload_witness :
    ReplaceIsDeleteThenUpload deleteFails swPlain fourBytes true [] ∧
    (ReplaceFilePart deleteFails swPlain fourBytes true []).map (fun o => o.err) = some none :=
  ⟨replace_is_delete_then_upload deleteFails swPlain fourBytes true [], by decide⟩

/-- C10 as stated fails: for a FilePart without a fid, `ReplaceFilePart` with `deleteFirst`
set issues no delete; its calls are the assignment and the upload only. -/
theorem replace_without_fid_counterexample :
    fileA.Fid = "" ∧
    (ReplaceFilePart okEnv swPlain fileA true []).map (fun o => o.trace)
      = some [Event.post "master:9333" "/dir/assign" [("count", "1")] (.ok "0"),
          Event.upload ⟨"pub1:8080", "3,0", []⟩ "a.txt" 1 false "text/plain" (.ok ⟨1⟩)] := by
  decide



end GoSeaweed

